import Mathlib

/-!
Shallow embedding of `rule_based_processor.py` (class `RuleBasedProcessor`),
the rule-based SALT normalization engine of the C-UnitSegmentation repository.

Strings are modelled as `List Char`; Python `str` operations (`strip`, `split`,
`lower`, `capitalize`) and the regular expressions used by the source are
translated into structurally recursive functions on character lists.  All
transcript input handled by the program is ASCII, so Python's Unicode-aware
case folding is modelled by an ASCII case table.
-/

/-- Python `\s` (ASCII whitespace as used by `str.strip`, `str.split`, `\s`). -/
def isSpaceChar (c : Char) : Bool :=
  c == ' ' || c == '\t' || c == '\n' || c == '\r' || c == '\x0b' || c == '\x0c'

/-- Python regex `\w` on ASCII text: letters, digits and underscore. -/
def isWordChar (c : Char) : Bool :=
  c.isAlphanum || c == '_'

/-- ASCII lower-casing, the effect of Python `str.lower` on ASCII text
(code points 65-90 shift up by 32). -/
def asciiToLower (c : Char) : Char :=
  if 65 ≤ c.toNat ∧ c.toNat ≤ 90 then Char.ofNat (c.toNat + 32) else c

/-- ASCII upper-casing, the effect of Python `str.upper` on ASCII text
(code points 97-122 shift down by 32). -/
def asciiToUpper (c : Char) : Char :=
  if 97 ≤ c.toNat ∧ c.toNat ≤ 122 then Char.ofNat (c.toNat - 32) else c

/-- Lower-case a whole character list (Python `str.lower`). -/
def lowerChars (s : List Char) : List Char := s.map asciiToLower

/-- Python `str.capitalize`: first character upper-cased, the rest lower-cased. -/
def capitalizeChars : List Char → List Char
  | [] => []
  | c :: cs => asciiToUpper c :: lowerChars cs

/-- The apostrophe character (U+0027), used in contracted words. -/
def apos : Char := Char.ofNat 39

/-- Drop leading characters satisfying `p` (used for Python `str.strip` family). -/
def trimLeftBy (p : Char → Bool) (s : List Char) : List Char := s.dropWhile p

/-- Drop trailing characters satisfying `p`. -/
def trimRightBy (p : Char → Bool) (s : List Char) : List Char :=
  (s.reverse.dropWhile p).reverse

/-- Python `str.strip()` (no argument): remove whitespace at both ends. -/
def pyStrip (s : List Char) : List Char :=
  trimRightBy isSpaceChar (trimLeftBy isSpaceChar s)

/-- Python `str.strip(chars)`: remove characters of the set at both ends. -/
def pyStripSet (set : List Char) (s : List Char) : List Char :=
  trimRightBy (fun c => set.contains c) (trimLeftBy (fun c => set.contains c) s)

/-- Python `str.split()` with no argument: split on whitespace runs, no empties.
Accumulator-based so that it is structurally recursive. -/
def wordsAux (cur : List Char) : List Char → List (List Char)
  | [] => if cur.isEmpty then [] else [cur.reverse]
  | c :: rest =>
    if isSpaceChar c then
      if cur.isEmpty then wordsAux [] rest else cur.reverse :: wordsAux [] rest
    else wordsAux (c :: cur) rest

/-- Whitespace-word split of a character list (Python `str.split()`). -/
def wordsOf (s : List Char) : List (List Char) := wordsAux [] s

/-- Python `' '.join(tokens)`. -/
def joinSp : List (List Char) → List Char
  | [] => []
  | [t] => t
  | t :: rest => t ++ ' ' :: joinSp rest

/-- Python `str.split(sep)` for a single-character separator (keeps empties). -/
def splitOnChar (sep : Char) : List Char → List (List Char)
  | [] => [[]]
  | c :: rest =>
    match splitOnChar sep rest with
    | [] => if c = sep then [[], []] else [[c]]
    | h :: t => if c = sep then [] :: h :: t else (c :: h) :: t

/-- Boolean prefix test on character lists (Python `str.startswith`). -/
def leadsWith : List Char → List Char → Bool
  | [], _ => true
  | _ :: _, [] => false
  | p :: ps, c :: cs => p == c && leadsWith ps cs

/-- Case-insensitive prefix test (for `re.IGNORECASE` literal matching). -/
def leadsWithCI : List Char → List Char → Bool
  | [], _ => true
  | _ :: _, [] => false
  | p :: ps, c :: cs => asciiToLower p == asciiToLower c && leadsWithCI ps cs


/-!
## `RuleBasedProcessor.detect_repetitions_and_mazes`

Pattern 1 is `re.sub(r'\b(\w+),\s+\1\b', r'(\1) \1', text)`.  A match is a
maximal word-character run `w` starting at a word boundary, a comma, a
non-empty whitespace run, the same run `w` again, and a word boundary.
(`\w+` cannot match a proper prefix of the run: the next character would be a
word character, not the required comma.)  `re.sub` scans left to right and
resumes after each match.
-/

/-- Attempt to match `\b(\w+),\s+\1\b` at the start of `s`.  The caller
guarantees the word boundary and that `s` starts with a word character.
Returns the captured run together with the total length of the match. -/
def tryMatchRep (s : List Char) : Option (List Char × Nat) :=
  let w := s.takeWhile isWordChar
  match s.dropWhile isWordChar with
  | [] => none
  | c1 :: r2 =>
    if c1 = ',' then
      let sp := r2.takeWhile isSpaceChar
      if sp.isEmpty then none
      else
        let r3 := r2.dropWhile isSpaceChar
        if leadsWith w r3 && (r3.drop w.length).head?.all (fun c => !isWordChar c) then
          some (w, w.length + 1 + sp.length + w.length)
        else none
    else none

/-- Scanner for pattern 1.  `prevW` records whether the previously consumed
character is a word character (for the `\b` test); `skip` counts characters of
an already-replaced match that remain to be consumed (this realizes `re.sub`
resuming after the match while keeping the recursion structural). -/
def repSubGo (prevW : Bool) (skip : Nat) : List Char → List Char
  | [] => []
  | c :: rest =>
    match skip with
    | Nat.succ k => repSubGo (isWordChar c) k rest
    | 0 =>
      if isWordChar c && !prevW then
        match tryMatchRep (c :: rest) with
        | some (w, len) =>
          ('(' :: w ++ ')' :: ' ' :: w) ++ repSubGo (isWordChar c) (len - 1) rest
        | none => c :: repSubGo (isWordChar c) 0 rest
      else c :: repSubGo (isWordChar c) 0 rest

/-- Pattern 1 of `detect_repetitions_and_mazes`. -/
def repSub (s : List Char) : List Char := repSubGo false 0 s

/-- `word.strip('.,!?')` as used throughout the segmentation code. -/
def stripPunct (w : List Char) : List Char :=
  pyStripSet ['.', ',', '!', '?'] w

/-- `words[i].strip('.,!?').lower()` — the comparison key of pattern 2. -/
def repKey (w : List Char) : List Char := lowerChars (stripPunct w)

/-- The stop set `{'the', 'a', 'an', 'to'}` of pattern 2. -/
def repStopSet : List (List Char) := ["the".data, "a".data, "an".data, "to".data]

/-- Pattern 2 of `detect_repetitions_and_mazes`: scan the word list; wrap the
first of two adjacent words with equal keys (outside the stop set) in
parentheses and resume after the pair. -/
def repScan : List (List Char) → List (List Char)
  | [] => []
  | [w] => [w]
  | w1 :: w2 :: rest =>
    if repKey w1 = repKey w2 && !(repStopSet.contains (repKey w1)) then
      ('(' :: w1 ++ [')']) :: w2 :: repScan rest
    else w1 :: repScan (w2 :: rest)

/-- `RuleBasedProcessor.detect_repetitions_and_mazes`. -/
def detectRepetitionsAndMazes (s : List Char) : List Char :=
  joinSp (repScan (wordsOf (repSub s)))


/-!
## `RuleBasedProcessor.detect_filled_pauses_enhanced`
-/

/-- The closed filled-pause vocabulary `self.filled_pauses`. -/
def filledPauses : List (List Char) :=
  ["uh".data, "um".data, "hm".data, "hmm".data, "er".data,
   "ah".data, "oh".data, "uhoh".data, "oops".data, "ooh".data]

/-- `re.sub(r'[^\w]', '', word.lower())` — the comparison key. -/
def fpKey (w : List Char) : List Char := (lowerChars w).filter isWordChar

/-- Per-word body of the `detect_filled_pauses_enhanced` loop. -/
def fpWord (w : List Char) : List Char :=
  if filledPauses.contains (fpKey w) then
    match w.getLast? with
    | some p =>
      if p = ',' || p = '.' || p = '!' || p = '?' then
        ('(' :: w.dropLast ++ " [FP])".data) ++ [p]
      else '(' :: w ++ " [FP])".data
    | none => '(' :: w ++ " [FP])".data
  else w

/-- `RuleBasedProcessor.detect_filled_pauses_enhanced`. -/
def detectFilledPausesEnhanced (s : List Char) : List Char :=
  joinSp ((wordsOf s).map fpWord)


/-!
## Literal `re.sub` engine

`normalize_speakers`, `handle_redactions` and `apply_morphological_marking`
all substitute a literal pattern, optionally anchored by `\b` at either end
and optionally case-insensitive.  The engine below scans left to right,
resuming after each replacement (`skip` counts the remaining characters of a
replaced match, keeping the recursion structural, exactly as in `repSubGo`).
-/

/-- Case-sensitive or case-insensitive literal prefix test. -/
def litMatch (ci : Bool) (pat s : List Char) : Bool :=
  if ci then leadsWithCI pat s else leadsWith pat s

/-- Word boundary after the match: the next character is absent or not a word
character (all patterns using a trailing `\b` end in a word character). -/
def boundaryAfter (n : Nat) (s : List Char) : Bool :=
  match (s.drop n).head? with
  | some c => !isWordChar c
  | none => true

/-- Scanner for a literal `re.sub`: `bStart`/`bEnd` demand a word boundary
before/after the match (all patterns using `\b` start and end with word
characters, so the boundary before means the previous character is not a word
character), `ci` selects `re.IGNORECASE`. -/
def subLitGo (bStart bEnd ci : Bool) (pat repl : List Char) (prevW : Bool) (skip : Nat) :
    List Char → List Char
  | [] => []
  | c :: rest =>
    match skip with
    | Nat.succ k => subLitGo bStart bEnd ci pat repl (isWordChar c) k rest
    | 0 =>
      if (!bStart || !prevW) && litMatch ci pat (c :: rest) &&
          (!bEnd || boundaryAfter pat.length (c :: rest)) then
        repl ++ subLitGo bStart bEnd ci pat repl (isWordChar c) (pat.length - 1) rest
      else c :: subLitGo bStart bEnd ci pat repl (isWordChar c) 0 rest

/-- `re.sub` of a literal pattern (empty patterns do not occur). -/
def subLit (bStart bEnd ci : Bool) (pat repl s : List Char) : List Char :=
  subLitGo bStart bEnd ci pat repl false 0 s

/-- `self.speaker_patterns` (insertion order of the dict). -/
def speakerTable : List (List Char × List Char) :=
  [("P:".data, "P:".data), ("Av:".data, "Av:".data),
   ("Avatar:".data, "Av:".data), ("Participant:".data, "P:".data)]

/-- `RuleBasedProcessor.normalize_speakers`: each pattern is `\b`-anchored at
the start only (it ends in `:`) and case-sensitive. -/
def normalizeSpeakers (s : List Char) : List Char :=
  speakerTable.foldl (fun t pr => subLit true false false pr.1 pr.2 t) s

/-- `RuleBasedProcessor.handle_redactions`:
`re.sub(r'\[redacted\]', '{redacted}', text, flags=re.IGNORECASE)`. -/
def handleRedactions (s : List Char) : List Char :=
  subLit false false true "[redacted]".data "\x7bredacted\x7d".data s

/-- The `morphological_patterns` table of `apply_morphological_marking`
(insertion order of the dict; every pattern is `\b`-anchored on both sides and
case-insensitive, with a fixed lower-case replacement). -/
def morphTable : List (List Char × List Char) :=
  [("get dressed".data, "get dress/ed".data),
   ("got dressed".data, "got dress/ed".data),
   ("get ready".data, "get ready".data),
   ("got ready".data, "got ready".data),
   ("looked".data, "look/ed".data),
   ("helped".data, "help/ed".data),
   ("wanted".data, "want/ed".data),
   ("needed".data, "need/ed".data),
   ("started".data, "start/ed".data),
   ("finished".data, "finish/ed".data)]

/-- `RuleBasedProcessor.apply_morphological_marking`. -/
def applyMorphologicalMarking (s : List Char) : List Char :=
  morphTable.foldl (fun t pr => subLit true true true pr.1 pr.2 t) s

/-- `re.sub(r'\s+', ' ', ...)` on an already stripped string: collapse every
whitespace run to a single space. -/
def collapseWSGo (prevSp : Bool) : List Char → List Char
  | [] => []
  | c :: rest =>
    if isSpaceChar c then
      if prevSp then collapseWSGo true rest else ' ' :: collapseWSGo true rest
    else c :: collapseWSGo false rest

/-- Whitespace collapsing (`re.sub(r'\s+', ' ', text.strip())` without the
strip, which `clean_text` performs first). -/
def collapseWS (s : List Char) : List Char := collapseWSGo false s

/-- `re.sub(r'\s+([.!?])', r'\1', text)`: drop whitespace runs that
immediately precede terminal punctuation.  `pend` holds the pending
whitespace run whose fate is not yet known. -/
def fixPunctGo (pend : List Char) : List Char → List Char
  | [] => pend
  | c :: rest =>
    if isSpaceChar c then fixPunctGo (pend ++ [c]) rest
    else if (c = '.' || c = '!' || c = '?') && !pend.isEmpty then
      c :: fixPunctGo [] rest
    else pend ++ c :: fixPunctGo [] rest

/-- Space-before-punctuation cleanup of `clean_text`. -/
def fixPunctSpace (s : List Char) : List Char := fixPunctGo [] s

/-- `RuleBasedProcessor.clean_text`: the fixed stage order of the source. -/
def cleanText (s : List Char) : List Char :=
  let t1 := collapseWS (pyStrip s)
  let t2 := normalizeSpeakers t1
  let t3 := handleRedactions t2
  let t4 := applyMorphologicalMarking t3
  let t5 := detectRepetitionsAndMazes t4
  let t6 := detectFilledPausesEnhanced t5
  fixPunctSpace t6


/-!
## `RuleBasedProcessor.segment_cunits`
-/

/-- `self.coordinating_conjunctions`. -/
def coordinatingConjunctions : List (List Char) :=
  ["and".data, "or".data, "but".data, "so".data, "then".data]

/-- `self.subordinating_conjunctions`. -/
def subordinatingConjunctions : List (List Char) :=
  ["because".data, "that".data, "when".data, "who".data, "after".data,
   "before".data, "which".data, "although".data, "if".data, "unless".data,
   "while".data, "as".data, "how".data, "until".data, "like".data,
   "where".data, "since".data]

/-- `words[i].lower().strip('.,!?')` — the scan key of `segment_cunits`. -/
def segKey (w : List Char) : List Char := stripPunct (lowerChars w)

/-- One non-"so that" step of the `segment_cunits` while-loop: returns the
units emitted by this step and the new `current_segment` buffer. -/
def segStep (speaker cur w : List Char) : List (List Char) × List Char :=
  if coordinatingConjunctions.contains (segKey w) && !(pyStrip cur).isEmpty then
    ([speaker ++ ':' :: ' ' :: pyStrip cur],
      if segKey w = "and".data then capitalizeChars w else w)
  else ([], cur ++ ' ' :: w)

/-- The while-loop of `segment_cunits` over the word list, including the
two-token "so that" look-ahead and the final flush of `current_segment`. -/
def segScan (speaker cur : List Char) : List (List Char) → List (List Char)
  | [] => if (pyStrip cur).isEmpty then [] else [speaker ++ ':' :: ' ' :: pyStrip cur]
  | [w] =>
    let st := segStep speaker cur w
    st.1 ++ segScan speaker st.2 []
  | w :: r :: rest =>
    if segKey w = "so".data && segKey r = "that".data then
      segScan speaker (cur ++ ' ' :: w ++ ' ' :: r) rest
    else
      let st := segStep speaker cur w
      st.1 ++ segScan speaker st.2 (r :: rest)

/-- The token list `segment_cunits` scans: the stripped text with a leading
`speaker:` prefix removed, split on whitespace. -/
def segTokens (text speaker : List Char) : List (List Char) :=
  let ct := pyStrip text
  let ct := if leadsWith (speaker ++ [':']) ct then pyStrip (ct.drop (speaker.length + 1)) else ct
  wordsOf ct

/-- `RuleBasedProcessor.segment_cunits`. -/
def segmentCunits (text speaker : List Char) : List (List Char) :=
  if (pyStrip text).isEmpty then [text]
  else
    let segments := segScan speaker [] (segTokens text speaker)
    if segments.isEmpty then [text] else segments


/-!
## Timestamps and pause timing

`parse_timestamp` calls Python `int()` on each colon-separated field; `int()`
raises `ValueError` on a malformed field, which the source does not catch, so
the embedding returns `Option`: `none` models a raised exception.
-/

/-- Digit run of Python `int()`: underscores are allowed only between digits. -/
def pyIntDigits (acc : Nat) : List Char → Option Nat
  | [] => some acc
  | c :: rest =>
    if c = '_' then
      match rest with
      | c2 :: rest' =>
        if c2.isDigit then pyIntDigits (acc * 10 + (c2.toNat - 48)) rest' else none
      | [] => none
    else if c.isDigit then pyIntDigits (acc * 10 + (c.toNat - 48)) rest else none

/-- Non-empty digit run with an accumulating value. -/
def pyIntStart : List Char → Option Nat
  | [] => none
  | c :: rest => if c.isDigit then pyIntDigits (c.toNat - 48) rest else none

/-- Python `int(s)` on ASCII text: optional surrounding whitespace, optional
sign, then a non-empty digit run; `none` models the `ValueError`. -/
def pyInt (s : List Char) : Option Int :=
  match pyStrip s with
  | [] => none
  | c :: rest =>
    if c = '+' then (pyIntStart rest).map Int.ofNat
    else if c = '-' then (pyIntStart rest).map (fun n => -(n : Int))
    else (pyIntStart (c :: rest)).map Int.ofNat

/-- `RuleBasedProcessor.parse_timestamp`: strip `[`/`]` from both ends, split
on `:`; exactly three parts are converted with `int()` (a failing conversion
raises, modelled by `none`); any other number of parts yields `(0, 0, 0)`. -/
def parseTimestamp (s : List Char) : Option (Int × Int × Int) :=
  let parts := splitOnChar ':' (pyStripSet ['[', ']'] s)
  match parts with
  | [a, b, c] =>
    match pyInt a, pyInt b, pyInt c with
    | some x, some y, some z => some (x, y, z)
    | _, _, _ => none
  | _ => some (0, 0, 0)

/-- Decimal rendering of a natural number (Python `str`). -/
def natStr (n : Nat) : List Char := Nat.toDigits 10 n

/-- Decimal rendering of an integer (Python `str`). -/
def intStr (i : Int) : List Char :=
  if i < 0 then '-' :: natStr i.natAbs else natStr i.natAbs

/-- Python `f"{i:02d}"`: zero-pad to two characters. -/
def pad2 (i : Int) : List Char :=
  if 0 ≤ i && i < 10 then '0' :: natStr i.natAbs else intStr i

/-- `RuleBasedProcessor.format_salt_timestamp`. -/
def formatSaltTimestamp (h m s : Int) : List Char :=
  let totalMinutes := h * 60 + m
  if totalMinutes = 0 && s = 0 then "-0:00".data
  else '-' :: intStr totalMinutes ++ ':' :: pad2 s

/-- `RuleBasedProcessor.calculate_pause_duration`. -/
def calculatePauseDuration (prev curr : Int × Int × Int) : Int :=
  (curr.1 * 3600 + curr.2.1 * 60 + curr.2.2) - (prev.1 * 3600 + prev.2.1 * 60 + prev.2.2)

/-- Python's `min` on two integers. -/
def pyMin (a b : Int) : Int := if a ≤ b then a else b

/-- `RuleBasedProcessor.improve_pause_timing`. -/
def improvePauseTiming (d : Int) : List Char :=
  if d < 2 then "; :02".data
  else if d < 5 then "; :0".data ++ intStr (pyMin d 3)
  else if d < 10 then "; :0".data ++ intStr (pyMin d 6)
  else "; :".data ++ pad2 (pyMin d 16)

/-- The guard `pause_duration >= 1.5` of `process_transcript`: over the
integer durations produced by `calculate_pause_duration`, comparing with the
float literal `1.5` is exactly `3 ≤ 2 * d`. -/
def significantPause (d : Int) : Bool := 3 ≤ 2 * d


/-!
## `RuleBasedProcessor.process_transcript` (the transcript assembler)
-/

/-- `re.search(r'\[(\d{2}:\d{2}:\d{2})\]', line)`: find the leftmost clock
marker; return the captured `dd:dd:dd` group and the text after the match. -/
def searchTimestamp : List Char → Option (List Char × List Char)
  | [] => none
  | x :: rest =>
    match x :: rest with
    | '[' :: a :: b :: ':' :: c :: d :: ':' :: e :: f :: ']' :: after =>
      if a.isDigit && b.isDigit && c.isDigit && d.isDigit && e.isDigit && f.isDigit then
        some ([a, b, ':', c, d, ':', e, f], after)
      else searchTimestamp rest
    | _ => searchTimestamp rest

/-- `re.match(r'^(P:|Av:)', clean_content)`: the captured group with the
trailing colon kept (`prev_speaker`) — `group(1).rstrip(':')` is the speaker
code passed to `segment_cunits`. -/
def speakerOf (s : List Char) : Option (List Char) :=
  if leadsWith "P:".data s then some "P:".data
  else if leadsWith "Av:".data s then some "Av:".data
  else none

/-- Python `str.replace` (all occurrences, left to right). -/
def replaceAll (pat repl s : List Char) : List Char :=
  subLit false false false pat repl s

/-- `'.'.join` helper for `pathStem`. -/
def joinDot : List (List Char) → List Char
  | [] => []
  | [t] => t
  | t :: rest => t ++ '.' :: joinDot rest

/-- `Path(filename).stem`: the final path component without its last
extension (a dot in position 0 of the name does not count as an extension
separator). -/
def pathStem (filename : List Char) : List Char :=
  let name := ((splitOnChar '/' filename).getLast? ).getD []
  match name with
  | [] => []
  | c :: rest =>
    let parts := splitOnChar '.' rest
    if parts.length ≤ 1 then c :: rest
    else c :: joinDot (parts.dropLast)

/-- `RuleBasedProcessor.add_salt_header`. -/
def addSaltHeader (filename : List Char) : List (List Char) :=
  [pyStrip (replaceAll "(Descript generated)".data [] (pathStem filename)), []]

/-- The terminal placeholder line of `process_transcript`. -/
def endMarker : List Char := "# END_MARKER - Final time to be determined by LLM".data

/-- The loop state of `process_transcript`: previous timestamp, previous
speaker, and the accumulated output lines. -/
structure PState where
  prevTs : Option (Int × Int × Int)
  prevSpeaker : Option (List Char)
  acc : List (List Char)

/-- The time-marker or pause-code lines a marker line contributes: the
absolute initial marker for the first timestamp, otherwise a pause code when
the elapsed duration is significant (`pause_duration >= 1.5`). -/
def assemblerTimeLines (prevTs : Option (Int × Int × Int)) (curr : Int × Int × Int) :
    List (List Char) :=
  match prevTs with
  | none => [formatSaltTimestamp curr.1 curr.2.1 curr.2.2]
  | some prev =>
    let pd := calculatePauseDuration prev curr
    if significantPause pd then [improvePauseTiming pd] else []

/-- One iteration of the `process_transcript` line loop. -/
def stepLine (st : PState) (idx : Nat) (rawLine : List Char) : PState :=
  let line := pyStrip rawLine
  if line.isEmpty then st
  else if idx = 0 && !(leadsWith "[".data line) then st
  else
    match searchTimestamp line with
    | some (ts, after) =>
      let content := pyStrip after
      -- `parse_timestamp` cannot fail here: the regex guarantees digit fields.
      let curr := (parseTimestamp ('[' :: ts ++ [']'])).getD (0, 0, 0)
      let acc1 := st.acc ++ assemblerTimeLines st.prevTs curr
      if content.isEmpty then
        { prevTs := some curr, prevSpeaker := st.prevSpeaker, acc := acc1 }
      else
        let cc := cleanText content
        match speakerOf cc with
        | some spk =>
          { prevTs := some curr, prevSpeaker := some spk,
            acc := acc1 ++ segmentCunits cc (trimRightBy (· == ':') spk) }
        | none =>
          { prevTs := some curr, prevSpeaker := st.prevSpeaker, acc := acc1 ++ [cc] }
    | none =>
      { st with acc := st.acc ++ [cleanText line] }

/-- Python `'\n'.join`. -/
def joinNl : List (List Char) → List Char
  | [] => []
  | [t] => t
  | t :: rest => t ++ '\n' :: joinNl rest

/-- Indexed fold over the input lines. -/
def runLines (st : PState) (idx : Nat) : List (List Char) → PState
  | [] => st
  | l :: rest => runLines (stepLine st idx l) (idx + 1) rest

/-- `RuleBasedProcessor.process_transcript`. -/
def processTranscript (input filename : List Char) : List Char :=
  let lines := splitOnChar '\n' (pyStrip input)
  let final := runLines ⟨none, none, addSaltHeader filename⟩ 0 lines
  let outLines :=
    if final.prevTs.isSome then final.acc ++ [[], endMarker] else final.acc
  joinNl outLines


/-!
## Definitions following the specification's words

These are used only to compare the specified stage order with the source's
stage order; they are built from the same stage embeddings.
-/

/-- The Lexical Normalizer as described by the specification (§4.2): speaker
and redaction normalization, whitespace collapsing, and removal of whitespace
before terminal punctuation — and nothing else. -/
def specLexicalNormalizer (s : List Char) : List Char :=
  fixPunctSpace (handleRedactions (normalizeSpeakers (collapseWS (pyStrip s))))

/-- The content-processing order claimed by the specification: Lexical
Normalizer, then Disfluency Detector, then Morphological Marker. -/
def specOrderClean (s : List Char) : List Char :=
  applyMorphologicalMarking
    (detectFilledPausesEnhanced (detectRepetitionsAndMazes (specLexicalNormalizer s)))

/-!
## Auxiliary notions used by the theorems
-/

/-- Canonical form of a word for the word-preservation statement: markup
parentheses removed, case folded, trailing commas dropped (the comma that
pattern 1 of the maze detector removes from a comma-separated repetition). -/
def canon (t : List Char) : List Char :=
  trimRightBy (· == ',') ((lowerChars t).filter (fun c => !(c == '(' || c == ')')))

/-- The non-markup words of a transcript line, markup parentheses stripped:
used to state the word-preservation claim exactly as written. -/
def plainWords (s : List Char) : List (List Char) :=
  (wordsOf s).map (List.filter (fun c => !(c == '(' || c == ')')))

/-- The body words of an emitted C-unit `speaker: …` (everything after the
speaker prefix token). -/
def unitBodyWords (u : List Char) : List (List Char) := (wordsOf u).drop 1

/-- Token lists on which `segment_cunits` never splits: every token whose
key is a coordinating conjunction is a `so` immediately followed by `that`.
Subordinating conjunctions satisfy this vacuously. -/
def noSplitTokens : List (List Char) → Bool
  | [] => true
  | w :: rest =>
    if coordinatingConjunctions.contains (segKey w) then
      match rest with
      | r :: rest' =>
        segKey w = "so".data && segKey r = "that".data && noSplitTokens rest'
      | [] => false
    else noSplitTokens rest

/-- The conjunction-split example utterance of the specification (§8). -/
def breakfastUtterance : List Char :=
  "P: Let".data ++ apos :: "s go and get dressed and we".data ++
    apos :: "ll get some breakfast.".data


/-- The rewriting relation realized by pattern 1 of the maze detector:
disjoint matches `w,<spaces>w` (word-character run, comma, whitespace, same
run) are replaced by `(w) w`; all other characters are copied. -/
inductive RepRew : List Char → List Char → Prop
  | nil : RepRew [] []
  | cons (c : Char) (s t : List Char) : RepRew s t → RepRew (c :: s) (c :: t)
  | repl (w sp rest t : List Char) (hw : w ≠ []) (hwc : ∀ c ∈ w, isWordChar c = true)
      (hsp : sp ≠ []) (hspc : ∀ c ∈ sp, isSpaceChar c = true) :
      RepRew rest t →
      RepRew (w ++ ',' :: sp ++ w ++ rest) ('(' :: w ++ ')' :: ' ' :: w ++ t)

/-!
# Helper lemmas
-/

theorem toNat_ofNat_valid (n : Nat) (h : n < 55296) : (Char.ofNat n).toNat = n := by
  unfold Char.ofNat
  rw [dif_pos]
  · rfl
  · exact Or.inl h

theorem char_toNat_inj {a b : Char} (h : a.toNat = b.toNat) : a = b := by
  apply Char.ext
  apply UInt32.ext
  simpa [Char.toNat, UInt32.toNat] using h

theorem isSpaceChar_cases {c : Char} (h : isSpaceChar c = true) :
    c.toNat = 32 ∨ c.toNat = 9 ∨ c.toNat = 10 ∨ c.toNat = 13 ∨ c.toNat = 11 ∨ c.toNat = 12 := by
  simp only [isSpaceChar, Bool.or_eq_true, beq_iff_eq] at h
  rcases h with ((((rfl | rfl) | rfl) | rfl) | rfl) | rfl <;> simp

theorem isSpaceChar_of_toNat {c : Char}
    (h : c.toNat ≠ 32 ∧ c.toNat ≠ 9 ∧ c.toNat ≠ 10 ∧ c.toNat ≠ 13 ∧
      c.toNat ≠ 11 ∧ c.toNat ≠ 12) : isSpaceChar c = false := by
  cases hs : isSpaceChar c with
  | false => rfl
  | true => rcases isSpaceChar_cases hs with h1 | h1 | h1 | h1 | h1 | h1 <;> tauto

theorem asciiToLower_asciiToUpper (c : Char) :
    asciiToLower (asciiToUpper c) = asciiToLower c := by
  unfold asciiToUpper
  by_cases h : 97 ≤ c.toNat ∧ c.toNat ≤ 122
  · rw [if_pos h]
    have hu : (Char.ofNat (c.toNat - 32)).toNat = c.toNat - 32 :=
      toNat_ofNat_valid _ (by omega)
    unfold asciiToLower
    rw [if_pos (by omega), if_neg (by omega)]
    apply char_toNat_inj
    rw [toNat_ofNat_valid _ (by omega)]
    omega
  · rw [if_neg h]

theorem asciiToLower_asciiToLower (c : Char) :
    asciiToLower (asciiToLower c) = asciiToLower c := by
  unfold asciiToLower
  by_cases h : 65 ≤ c.toNat ∧ c.toNat ≤ 90
  · rw [if_pos h]
    have hu : (Char.ofNat (c.toNat + 32)).toNat = c.toNat + 32 :=
      toNat_ofNat_valid _ (by omega)
    rw [if_neg (by omega)]
  · rw [if_neg h, if_neg h]

theorem isSpaceChar_asciiToLower (c : Char) :
    isSpaceChar (asciiToLower c) = isSpaceChar c := by
  unfold asciiToLower
  by_cases h : 65 ≤ c.toNat ∧ c.toNat ≤ 90
  · rw [if_pos h]
    have hu : (Char.ofNat (c.toNat + 32)).toNat = c.toNat + 32 :=
      toNat_ofNat_valid _ (by omega)
    rw [isSpaceChar_of_toNat (by omega), isSpaceChar_of_toNat (by omega)]
  · rw [if_neg h]

theorem isSpaceChar_asciiToUpper (c : Char) :
    isSpaceChar (asciiToUpper c) = isSpaceChar c := by
  unfold asciiToUpper
  by_cases h : 97 ≤ c.toNat ∧ c.toNat ≤ 122
  · rw [if_pos h]
    have hu : (Char.ofNat (c.toNat - 32)).toNat = c.toNat - 32 :=
      toNat_ofNat_valid _ (by omega)
    rw [isSpaceChar_of_toNat (by omega), isSpaceChar_of_toNat (by omega)]
  · rw [if_neg h]

theorem lowerChars_capitalizeChars (w : List Char) :
    lowerChars (capitalizeChars w) = lowerChars w := by
  cases w with
  | nil => rfl
  | cons c cs =>
    show asciiToLower (asciiToUpper c) :: (cs.map asciiToLower).map asciiToLower
        = asciiToLower c :: cs.map asciiToLower
    rw [asciiToLower_asciiToUpper, List.map_map]
    exact congrArg _ (List.map_congr_left fun a _ => asciiToLower_asciiToLower a)

theorem isSpaceChar_isWordChar (c : Char) (h : isSpaceChar c = true) :
    isWordChar c = false := by
  simp only [isSpaceChar, Bool.or_eq_true, beq_iff_eq] at h
  rcases h with ((((rfl | rfl) | rfl) | rfl) | rfl) | rfl <;> decide

theorem isWordChar_isSpaceChar (c : Char) (h : isWordChar c = true) :
    isSpaceChar c = false := by
  cases hs : isSpaceChar c with
  | false => rfl
  | true => rw [isSpaceChar_isWordChar c hs] at h; cases h

/-!
### Word-splitting lemmas
-/

theorem wordsAux_nonspace (w : List Char) (hw : ∀ c ∈ w, isSpaceChar c = false) :
    ∀ cur r, wordsAux cur (w ++ r) = wordsAux (w.reverse ++ cur) r := by
  induction w with
  | nil => intro cur r; simp
  | cons c cs ih =>
    intro cur r
    have hc : isSpaceChar c = false := hw c (by simp)
    simp only [List.cons_append, wordsAux, hc, Bool.false_eq_true, if_false, List.append_eq]
    rw [ih (fun a ha => hw a (by simp [ha])) (c :: cur) r]
    simp

theorem wordsAux_allspace (sp : List Char) (hsp : ∀ c ∈ sp, isSpaceChar c = true) :
    ∀ cur, wordsAux cur sp = if cur.isEmpty then [] else [cur.reverse] := by
  induction sp with
  | nil => intro cur; rfl
  | cons c cs ih =>
    intro cur
    have hc : isSpaceChar c = true := hsp c (by simp)
    have ihe := ih (fun a ha => hsp a (by simp [ha])) []
    simp only [wordsAux, hc, if_true]
    by_cases hcur : cur.isEmpty <;>
      simp [hcur, ih (fun a ha => hsp a (by simp [ha]))]

theorem wordsAux_space_lead (sp : List Char) (hsp : ∀ c ∈ sp, isSpaceChar c = true)
    (r : List Char) : wordsAux [] (sp ++ r) = wordsAux [] r := by
  induction sp with
  | nil => rfl
  | cons c cs ih =>
    have hc : isSpaceChar c = true := hsp c (by simp)
    simp only [List.cons_append, wordsAux, hc, if_true, List.isEmpty_nil]
    exact ih (fun a ha => hsp a (by simp [ha]))

theorem wordsAux_flush (sp r cur : List Char) (hne : sp ≠ [])
    (hsp : ∀ c ∈ sp, isSpaceChar c = true) (hcur : cur ≠ []) :
    wordsAux cur (sp ++ r) = cur.reverse :: wordsAux [] r := by
  cases sp with
  | nil => exact absurd rfl hne
  | cons c cs =>
    have hc : isSpaceChar c = true := hsp c (by simp)
    have hce : cur.isEmpty = false := by simpa [List.isEmpty_iff] using hcur
    simp only [List.cons_append, wordsAux, hc, if_true, hce, Bool.false_eq_true, if_false,
      List.append_eq]
    rw [wordsAux_space_lead cs (fun a ha => hsp a (by simp [ha])) r]

theorem wordsAux_append_word (a : List Char) :
    ∀ cur b, wordsAux cur (a ++ ' ' :: b) = wordsAux cur a ++ wordsAux [] b := by
  induction a with
  | nil =>
    intro cur b
    by_cases hcur : cur.isEmpty <;> simp [wordsAux, hcur, isSpaceChar]
  | cons c cs ih =>
    intro cur b
    cases hc : isSpaceChar c with
    | true =>
      by_cases hcur : cur.isEmpty <;> simp [wordsAux, hc, hcur, ih]
    | false => simp [wordsAux, hc, ih]

theorem wordsAux_token_mem (s : List Char) :
    ∀ cur w, w ∈ wordsAux cur s → (∀ c ∈ cur, isSpaceChar c = false) →
      w ≠ [] ∧ ∀ c ∈ w, isSpaceChar c = false := by
  induction s with
  | nil =>
    intro cur w hmem hcur
    by_cases hce : cur.isEmpty
    · simp [wordsAux, hce] at hmem
    · simp only [wordsAux, hce, Bool.false_eq_true, if_false, List.mem_singleton] at hmem
      subst hmem
      refine ⟨by simpa [List.isEmpty_iff] using hce, ?_⟩
      intro c hcm
      exact hcur c (List.mem_reverse.mp hcm)
  | cons c cs ih =>
    intro cur w hmem hcur
    cases hc : isSpaceChar c with
    | true =>
      by_cases hce : cur.isEmpty
      · rw [wordsAux, hc, if_pos rfl, if_pos hce] at hmem
        exact ih [] w hmem (by simp)
      · rw [wordsAux, hc, if_pos rfl, if_neg hce] at hmem
        rcases List.mem_cons.mp hmem with rfl | hmem2
        · refine ⟨by simpa [List.isEmpty_iff] using hce, ?_⟩
          intro a ham
          exact hcur a (List.mem_reverse.mp ham)
        · exact ih [] w hmem2 (by simp)
    | false =>
      rw [wordsAux, hc] at hmem
      simp only [Bool.false_eq_true, if_false] at hmem
      refine ih (c :: cur) w hmem ?_
      intro a ham
      rcases List.mem_cons.mp ham with rfl | h2
      · exact hc
      · exact hcur a h2

theorem wordsOf_token {s w : List Char} (h : w ∈ wordsOf s) :
    w ≠ [] ∧ ∀ c ∈ w, isSpaceChar c = false :=
  wordsAux_token_mem s [] w h (by simp)

theorem wordsOf_single (w : List Char) (hne : w ≠ [])
    (hns : ∀ c ∈ w, isSpaceChar c = false) : wordsOf w = [w] := by
  have h0 := wordsAux_nonspace w hns [] []
  rw [List.append_nil] at h0
  rw [wordsOf, h0, wordsAux]
  simp [List.isEmpty_iff, hne]

theorem wordsOf_joinSp (ts : List (List Char))
    (h : ∀ t ∈ ts, t ≠ [] ∧ ∀ c ∈ t, isSpaceChar c = false) :
    wordsOf (joinSp ts) = ts := by
  induction ts with
  | nil => rfl
  | cons t rest ih =>
    cases rest with
    | nil =>
      rcases h t (by simp) with ⟨h1, h2⟩
      simpa [joinSp] using wordsOf_single t h1 h2
    | cons t2 rest2 =>
      rcases h t (by simp) with ⟨h1, h2⟩
      show wordsOf (t ++ ' ' :: joinSp (t2 :: rest2)) = t :: t2 :: rest2
      rw [wordsOf, wordsAux_append_word t [] (joinSp (t2 :: rest2))]
      rw [show wordsAux [] t = wordsOf t from rfl, wordsOf_single t h1 h2]
      rw [show wordsAux [] (joinSp (t2 :: rest2)) = wordsOf (joinSp (t2 :: rest2)) from rfl]
      rw [ih (fun a ha => h a (by simp [ha]))]
      rfl

theorem wordsAux_trailing (t : List Char) (sp : List Char)
    (hsp : ∀ c ∈ sp, isSpaceChar c = true) :
    ∀ cur, wordsAux cur (t ++ sp) = wordsAux cur t := by
  induction t with
  | nil =>
    intro cur
    rw [List.nil_append, wordsAux_allspace sp hsp cur, wordsAux]
  | cons c cs ih =>
    intro cur
    cases hc : isSpaceChar c with
    | true => by_cases hcur : cur.isEmpty <;> simp [wordsAux, hc, hcur, ih]
    | false => simp [wordsAux, hc, ih]

theorem wordsOf_trimLeft (s : List Char) :
    wordsOf (trimLeftBy isSpaceChar s) = wordsOf s := by
  conv_rhs => rw [← List.takeWhile_append_dropWhile (p := isSpaceChar) (l := s)]
  rw [trimLeftBy, wordsOf, wordsOf,
    wordsAux_space_lead _ (fun a ha => List.mem_takeWhile_imp ha) _]

theorem wordsOf_trimRight (s : List Char) :
    wordsOf (trimRightBy isSpaceChar s) = wordsOf s := by
  have hdec : s = trimRightBy isSpaceChar s ++ (s.reverse.takeWhile isSpaceChar).reverse := by
    rw [trimRightBy, ← List.reverse_append, List.takeWhile_append_dropWhile,
      List.reverse_reverse]
  conv_rhs => rw [hdec]
  rw [wordsOf, wordsOf, wordsAux_trailing]
  intro a ha
  exact List.mem_takeWhile_imp (List.mem_reverse.mp ha)

theorem wordsOf_pyStrip (s : List Char) : wordsOf (pyStrip s) = wordsOf s := by
  rw [pyStrip, wordsOf_trimRight, wordsOf_trimLeft]

theorem pyStrip_empty_words {s : List Char} (h : pyStrip s = []) : wordsOf s = [] := by
  rw [← wordsOf_pyStrip, h]
  rfl

/-!
### Word characters and the canonical word form
-/

theorem u32_le_toNat (a b : UInt32) : (a ≤ b) ↔ (a.toNat ≤ b.toNat) := Iff.rfl

theorem isWordChar_toNat (c : Char) (h : isWordChar c = true) :
    (48 ≤ c.toNat ∧ c.toNat ≤ 57) ∨ (65 ≤ c.toNat ∧ c.toNat ≤ 90) ∨
      (97 ≤ c.toNat ∧ c.toNat ≤ 122) ∨ c.toNat = 95 := by
  simp only [isWordChar, Char.isAlphanum, Char.isAlpha, Char.isUpper, Char.isLower,
    Char.isDigit, Bool.or_eq_true, Bool.and_eq_true, decide_eq_true_eq, beq_iff_eq,
    ge_iff_le, u32_le_toNat] at h
  rcases h with ((⟨h1, h2⟩ | ⟨h1, h2⟩) | ⟨h1, h2⟩) | rfl
  · right; left
    exact ⟨by simpa [Char.toNat] using h1, by simpa [Char.toNat] using h2⟩
  · right; right; left
    exact ⟨by simpa [Char.toNat] using h1, by simpa [Char.toNat] using h2⟩
  · left
    exact ⟨by simpa [Char.toNat] using h1, by simpa [Char.toNat] using h2⟩
  · right; right; right; rfl

theorem asciiToLower_wordChar_toNat (c : Char) (h : isWordChar c = true) :
    (48 ≤ (asciiToLower c).toNat ∧ (asciiToLower c).toNat ≤ 57) ∨
      (97 ≤ (asciiToLower c).toNat ∧ (asciiToLower c).toNat ≤ 122) ∨
      (asciiToLower c).toNat = 95 := by
  rcases isWordChar_toNat c h with h1 | h1 | h1 | h1 <;> unfold asciiToLower
  · rw [if_neg (by omega)]; left; exact h1
  · rw [if_pos (by omega), toNat_ofNat_valid _ (by omega)]; right; left; omega
  · rw [if_neg (by omega)]; right; left; exact h1
  · rw [if_neg (by omega)]; right; right; rw [h1]

theorem char_toNat_ne {a b : Char} (h : a.toNat ≠ b.toNat) : a ≠ b :=
  fun he => h (he ▸ rfl)

/-- The canonical-form filter keeps lower-cased word characters. -/
theorem canonKeep_wordChar (c : Char) (h : isWordChar c = true) :
    (!(asciiToLower c == '(' || asciiToLower c == ')')) = true := by
  have h1 : asciiToLower c ≠ '(' := by
    apply char_toNat_ne
    rw [show ('(' : Char).toNat = 40 from by decide]
    rcases asciiToLower_wordChar_toNat c h with h2 | h2 | h2 <;> omega
  have h2 : asciiToLower c ≠ ')' := by
    apply char_toNat_ne
    rw [show (')' : Char).toNat = 41 from by decide]
    rcases asciiToLower_wordChar_toNat c h with h2 | h2 | h2 <;> omega
  simp [h1, h2]

theorem lower_wordChar_ne_comma (c : Char) (h : isWordChar c = true) :
    asciiToLower c ≠ ',' := by
  apply char_toNat_ne
  rw [show (',' : Char).toNat = 44 from by decide]
  rcases asciiToLower_wordChar_toNat c h with h2 | h2 | h2 <;> omega

theorem trimRightBy_append_true (q : Char → Bool) (l : List Char) (a : Char)
    (h : q a = true) : trimRightBy q (l ++ [a]) = trimRightBy q l := by
  simp [trimRightBy, List.dropWhile, h]

theorem trimRightBy_append_false (q : Char → Bool) (l : List Char) (a : Char)
    (h : q a = false) : trimRightBy q (l ++ [a]) = l ++ [a] := by
  simp [trimRightBy, List.dropWhile, h]

theorem trimRightBy_last_false (q : Char → Bool) (x w : List Char) (hne : w ≠ [])
    (h : ∀ c ∈ w, q c = false) : trimRightBy q (x ++ w) = x ++ w := by
  have hd : w.dropLast ++ [w.getLast hne] = w := List.dropLast_append_getLast hne
  calc trimRightBy q (x ++ w) = trimRightBy q ((x ++ w.dropLast) ++ [w.getLast hne]) := by
        rw [List.append_assoc, hd]
    _ = (x ++ w.dropLast) ++ [w.getLast hne] := by
        exact trimRightBy_append_false q _ _ (h _ (List.getLast_mem hne))
    _ = x ++ w := by rw [List.append_assoc, hd]

theorem canon_append_wrap (a w : List Char) (hne : w ≠ [])
    (hwc : ∀ c ∈ w, isWordChar c = true) :
    canon (a ++ w ++ [',']) = canon (a ++ '(' :: (w ++ [')'])) := by
  have hfl : (lowerChars w).filter (fun c => !(c == '(' || c == ')')) = lowerChars w := by
    apply List.filter_eq_self.mpr
    intro c hc
    rcases List.mem_map.mp hc with ⟨d, hd, rfl⟩
    exact canonKeep_wordChar d (hwc d hd)
  have hlne : lowerChars w ≠ [] := by
    simpa [lowerChars] using hne
  have hlc : ∀ c ∈ lowerChars w, (c == ',') = false := by
    intro c hc
    rcases List.mem_map.mp hc with ⟨d, hd, rfl⟩
    simpa using lower_wordChar_ne_comma d (hwc d hd)
  unfold canon
  rw [show lowerChars (a ++ w ++ [',']) = lowerChars a ++ lowerChars w ++ [','] by
      simp [lowerChars]; decide,
    show lowerChars (a ++ '(' :: (w ++ [')'])) = lowerChars a ++ '(' :: (lowerChars w ++ [')'])
      by simp [lowerChars]; constructor <;> decide]
  rw [List.filter_append, List.filter_append, List.filter_append]
  simp only [hfl]
  rw [show List.filter (fun c => !(c == '(' || c == ')')) [','] = [','] from by decide]
  rw [show List.filter (fun c => !(c == '(' || c == ')')) ('(' :: (lowerChars w ++ [')']))
      = (lowerChars w).filter (fun c => !(c == '(' || c == ')')) from by
    rw [List.filter_cons_of_neg (by decide), List.filter_append]
    rw [show List.filter (fun c => !(c == '(' || c == ')')) [')'] = [] from by decide]
    rw [List.append_nil]]
  rw [hfl]
  rw [trimRightBy_append_true _ _ _ (by decide)]

/-!
### Pattern 1 realizes the rewriting relation
-/

theorem repSubGo_skip (s : List Char) :
    ∀ k p, ∃ q, repSubGo p k s = repSubGo q 0 (s.drop k) := by
  induction s with
  | nil =>
    intro k p
    exact ⟨p, by cases k <;> rfl⟩
  | cons c rest ih =>
    intro k p
    cases k with
    | zero => exact ⟨p, rfl⟩
    | succ k2 =>
      rcases ih k2 (isWordChar c) with ⟨q, hq⟩
      exact ⟨q, by simpa [repSubGo] using hq⟩

theorem leadsWith_eq_append {p s : List Char} (h : leadsWith p s = true) :
    ∃ r, s = p ++ r := by
  induction p generalizing s with
  | nil => exact ⟨s, rfl⟩
  | cons a ps ih =>
    cases s with
    | nil => simp [leadsWith] at h
    | cons c cs =>
      simp only [leadsWith, Bool.and_eq_true, beq_iff_eq] at h
      rcases h with ⟨rfl, h2⟩
      rcases ih h2 with ⟨r, rfl⟩
      exact ⟨r, rfl⟩

theorem tryMatchRep_some {c : Char} {rest w : List Char} {len : Nat}
    (hc : isWordChar c = true)
    (h : tryMatchRep (c :: rest) = some (w, len)) :
    w ≠ [] ∧ (∀ a ∈ w, isWordChar a = true) ∧
    ∃ sp r4, sp ≠ [] ∧ (∀ a ∈ sp, isSpaceChar a = true) ∧
      c :: rest = w ++ (',' :: (sp ++ (w ++ r4))) ∧
      len = w.length + 1 + sp.length + w.length := by
  unfold tryMatchRep at h
  rcases hsplit : (c :: rest).dropWhile isWordChar with _ | ⟨c1, r2⟩ <;> rw [hsplit] at h <;>
    dsimp only [] at h
  · exact absurd h (by simp)
  · by_cases hcomma : c1 = ','
    case neg => rw [if_neg hcomma] at h; exact absurd h (by simp)
    subst hcomma
    rw [if_pos rfl] at h
    by_cases hspe : (r2.takeWhile isSpaceChar).isEmpty
    · rw [if_pos hspe] at h; exact absurd h (by simp)
    rw [if_neg hspe] at h
    by_cases hcond : (leadsWith ((c :: rest).takeWhile isWordChar) (r2.dropWhile isSpaceChar) &&
        (((r2.dropWhile isSpaceChar).drop ((c :: rest).takeWhile isWordChar).length).head?.all
          (fun a => !isWordChar a))) = true
    case neg => rw [if_neg hcond] at h; exact absurd h (by simp)
    rw [if_pos hcond] at h
    have hw : w = (c :: rest).takeWhile isWordChar := by
      have := congrArg (fun o => Option.map Prod.fst o) h
      simpa using this.symm
    have hlen : len = ((c :: rest).takeWhile isWordChar).length + 1 +
        (r2.takeWhile isSpaceChar).length + ((c :: rest).takeWhile isWordChar).length := by
      have := congrArg (fun o => Option.map Prod.snd o) h
      simpa using this.symm
    have hcond2 := hcond
    rw [Bool.and_eq_true] at hcond2
    rcases hcond2 with ⟨hlead, _⟩
    rcases leadsWith_eq_append hlead with ⟨r4, hr3⟩
    subst hw
    refine ⟨?_, ?_, r2.takeWhile isSpaceChar, r4, ?_, ?_, ?_, hlen⟩
    · rw [List.takeWhile_cons_of_pos hc]
      simp
    · intro a ha
      exact List.mem_takeWhile_imp ha
    · simpa [List.isEmpty_iff] using hspe
    · intro a ha
      exact List.mem_takeWhile_imp ha
    · conv_lhs => rw [← List.takeWhile_append_dropWhile (p := isWordChar) (l := c :: rest)]
      rw [hsplit]
      have hr2 : r2 = List.takeWhile isSpaceChar r2 ++
          (List.takeWhile isWordChar (c :: rest) ++ r4) := by
        conv_lhs => rw [← List.takeWhile_append_dropWhile (p := isSpaceChar) (l := r2)]
        rw [hr3]
      conv_lhs => rw [hr2]

theorem repSubGo_rew : ∀ n s, s.length ≤ n → ∀ p, RepRew s (repSubGo p 0 s) := by
  intro n
  induction n with
  | zero =>
    intro s hs p
    have hnil : s = [] := List.eq_nil_of_length_eq_zero (Nat.le_zero.mp hs)
    subst hnil
    exact RepRew.nil
  | succ n ih =>
    intro s hs p
    cases s with
    | nil => exact RepRew.nil
    | cons c rest =>
      have hrl : rest.length ≤ n := by
        simp only [List.length_cons] at hs
        omega
      by_cases hcp : (isWordChar c && !p) = true
      · rcases htm : tryMatchRep (c :: rest) with _ | ⟨w, len⟩
        · have hred : repSubGo p 0 (c :: rest) = c :: repSubGo (isWordChar c) 0 rest := by
            simp [repSubGo, hcp, htm]
          rw [hred]
          exact RepRew.cons c _ _ (ih rest hrl _)
        · have hcw : isWordChar c = true := by
            revert hcp
            cases hw2 : isWordChar c <;> simp
          rcases tryMatchRep_some hcw htm with ⟨hwne, hwc, sp, r4, hspne, hspc, hdecomp, hlen⟩
          have hred : repSubGo p 0 (c :: rest) =
              ('(' :: w ++ ')' :: ' ' :: w) ++ repSubGo (isWordChar c) (len - 1) rest := by
            simp [repSubGo, hcp, htm]
          rcases repSubGo_skip rest (len - 1) (isWordChar c) with ⟨q, hq⟩
          have hwl : 1 ≤ w.length := List.length_pos.mpr hwne
          have hdrop : rest.drop (len - 1) = r4 := by
            have hpre : (w ++ (',' :: (sp ++ w))).length = len := by
              simp only [List.length_append, List.length_cons]
              omega
            have h1 : (c :: rest).drop len = r4 := by
              rw [hdecomp, show w ++ (',' :: (sp ++ (w ++ r4)))
                  = (w ++ (',' :: (sp ++ w))) ++ r4 by simp]
              rw [← hpre]
              exact List.drop_left _ _
            rcases hl0 : len with _ | m
            · omega
            · rw [hl0] at h1
              simpa using h1
          have hr4l : r4.length ≤ n := by
            have := congrArg List.length hdecomp
            simp only [List.length_cons, List.length_append] at this
            omega
          rw [hred, hq, hdrop, hdecomp]
          have key := RepRew.repl w sp r4 (repSubGo q 0 r4) hwne hwc hspne hspc (ih r4 hr4l q)
          simp only [List.append_assoc, List.cons_append] at key ⊢
          exact key
      · have hred : repSubGo p 0 (c :: rest) = c :: repSubGo (isWordChar c) 0 rest := by
          simp only [repSubGo]
          rw [if_neg hcp]
        rw [hred]
        exact RepRew.cons c _ _ (ih rest hrl _)

theorem repSub_rew (s : List Char) : RepRew s (repSub s) :=
  repSubGo_rew s.length s (Nat.le_refl _) false

theorem repRew_words {s t : List Char} (h : RepRew s t) :
    ∀ cur, (wordsAux cur s).map canon = (wordsAux cur t).map canon := by
  induction h with
  | nil => intro cur; rfl
  | cons c s t hst ih =>
    intro cur
    cases hc : isSpaceChar c with
    | true =>
      by_cases hcur : cur.isEmpty
      · rw [show wordsAux cur (c :: s) = wordsAux [] s from by simp [wordsAux, hc, hcur],
          show wordsAux cur (c :: t) = wordsAux [] t from by simp [wordsAux, hc, hcur]]
        exact ih []
      · rw [show wordsAux cur (c :: s) = cur.reverse :: wordsAux [] s from by
            simp [wordsAux, hc, hcur],
          show wordsAux cur (c :: t) = cur.reverse :: wordsAux [] t from by
            simp [wordsAux, hc, hcur]]
        simp only [List.map_cons]
        rw [ih []]
    | false =>
      rw [show wordsAux cur (c :: s) = wordsAux (c :: cur) s from by simp [wordsAux, hc],
        show wordsAux cur (c :: t) = wordsAux (c :: cur) t from by simp [wordsAux, hc]]
      exact ih (c :: cur)
  | repl w sp rest t hw hwc hsp hspc hrt ih =>
    intro cur
    have hwns : ∀ a ∈ w, isSpaceChar a = false := fun a ha => isWordChar_isSpaceChar a (hwc a ha)
    have hsrc : w ++ ',' :: sp ++ w ++ rest = w ++ (',' :: (sp ++ (w ++ rest))) := by simp
    have htgt : '(' :: w ++ ')' :: ' ' :: w ++ t = '(' :: (w ++ (')' :: (' ' :: (w ++ t)))) := by
      simp
    rw [hsrc, htgt]
    rw [wordsAux_nonspace w hwns cur (',' :: (sp ++ (w ++ rest)))]
    rw [show wordsAux (w.reverse ++ cur) (',' :: (sp ++ (w ++ rest)))
        = wordsAux (',' :: (w.reverse ++ cur)) (sp ++ (w ++ rest)) from by
      simp [wordsAux, show isSpaceChar ',' = false from by decide]]
    rw [wordsAux_flush sp (w ++ rest) (',' :: (w.reverse ++ cur)) hsp hspc (by simp)]
    rw [show wordsAux ([] : List Char) (w ++ rest) = wordsAux (w.reverse ++ []) rest from
      wordsAux_nonspace w hwns [] rest]
    rw [show wordsAux cur ('(' :: (w ++ (')' :: (' ' :: (w ++ t)))))
        = wordsAux ('(' :: cur) (w ++ (')' :: (' ' :: (w ++ t)))) from by
      simp [wordsAux, show isSpaceChar '(' = false from by decide]]
    rw [wordsAux_nonspace w hwns ('(' :: cur) (')' :: (' ' :: (w ++ t)))]
    rw [show wordsAux (w.reverse ++ '(' :: cur) (')' :: (' ' :: (w ++ t)))
        = wordsAux (')' :: (w.reverse ++ '(' :: cur)) (' ' :: (w ++ t)) from by
      simp [wordsAux, show isSpaceChar ')' = false from by decide]]
    rw [show (' ' :: (w ++ t)) = [' '] ++ (w ++ t) from rfl]
    rw [wordsAux_flush [' '] (w ++ t) (')' :: (w.reverse ++ '(' :: cur)) (by simp)
      (by simp [isSpaceChar]) (by simp)]
    rw [show wordsAux ([] : List Char) (w ++ t) = wordsAux (w.reverse ++ []) t from
      wordsAux_nonspace w hwns [] t]
    simp only [List.map_cons, List.append_nil]
    have hA : (',' :: (w.reverse ++ cur)).reverse = (cur.reverse ++ w) ++ [','] := by
      simp
    have hB : (')' :: (w.reverse ++ '(' :: cur)).reverse
        = cur.reverse ++ ('(' :: (w ++ [')'])) := by
      simp
    rw [hA, hB]
    congr 1
    · exact canon_append_wrap cur.reverse w hw hwc
    · exact ih w.reverse

theorem canon_wrapParens (w : List Char) : canon ('(' :: w ++ [')']) = canon w := by
  unfold canon
  congr 1
  rw [show lowerChars ('(' :: w ++ [')']) = '(' :: (lowerChars w ++ [')']) from by
    simp [lowerChars]
    constructor <;> decide]
  rw [List.filter_cons_of_neg (by decide), List.filter_append,
    show List.filter (fun c => !(c == '(' || c == ')')) [')'] = [] from by decide,
    List.append_nil]

theorem repScan_canon (n : Nat) : ∀ ts : List (List Char), ts.length ≤ n →
    (repScan ts).map canon = ts.map canon := by
  induction n with
  | zero =>
    intro ts h
    have : ts = [] := List.eq_nil_of_length_eq_zero (Nat.le_zero.mp h)
    subst this
    rfl
  | succ n ih =>
    intro ts h
    cases ts with
    | nil => rfl
    | cons w1 rest =>
      cases rest with
      | nil => rfl
      | cons w2 rest2 =>
        by_cases hcond : (repKey w1 = repKey w2 && !(repStopSet.contains (repKey w1))) = true
        · rw [show repScan (w1 :: w2 :: rest2) = ('(' :: w1 ++ [')']) :: w2 :: repScan rest2
            from by simp only [repScan]; rw [if_pos hcond]]
          simp only [List.map_cons]
          rw [ih rest2 (by simp only [List.length_cons] at h; omega), canon_wrapParens w1]
        · rw [show repScan (w1 :: w2 :: rest2) = w1 :: repScan (w2 :: rest2) from by
            simp only [repScan]; rw [if_neg hcond]]
          simp only [List.map_cons]
          rw [ih (w2 :: rest2) (by simp only [List.length_cons] at h ⊢; omega)]
          rfl

theorem repScan_tokens (n : Nat) : ∀ ts : List (List Char), ts.length ≤ n →
    (∀ t ∈ ts, t ≠ [] ∧ ∀ c ∈ t, isSpaceChar c = false) →
    ∀ u ∈ repScan ts, u ≠ [] ∧ ∀ c ∈ u, isSpaceChar c = false := by
  induction n with
  | zero =>
    intro ts h hts
    have : ts = [] := List.eq_nil_of_length_eq_zero (Nat.le_zero.mp h)
    subst this
    intro u hu
    cases hu
  | succ n ih =>
    intro ts h hts
    cases ts with
    | nil => intro u hu; cases hu
    | cons w1 rest =>
      cases rest with
      | nil =>
        intro u hu
        rcases List.mem_singleton.mp hu with rfl
        exact hts u (by simp)
      | cons w2 rest2 =>
        by_cases hcond : (repKey w1 = repKey w2 && !(repStopSet.contains (repKey w1))) = true
        · rw [show repScan (w1 :: w2 :: rest2) = ('(' :: w1 ++ [')']) :: w2 :: repScan rest2
            from by simp only [repScan]; rw [if_pos hcond]]
          intro u hu
          rcases List.mem_cons.mp hu with rfl | hu2
          · refine ⟨by simp, ?_⟩
            intro c hcm
            rcases List.mem_cons.mp hcm with rfl | hcm2
            · decide
            · rcases List.mem_append.mp hcm2 with hcm3 | hcm3
              · exact (hts w1 (by simp)).2 c hcm3
              · rcases List.mem_singleton.mp hcm3 with rfl
                decide
          · rcases List.mem_cons.mp hu2 with rfl | hu3
            · exact hts u (by simp)
            · exact ih rest2 (by simp only [List.length_cons] at h ⊢; omega)
                (fun t ht => hts t (by simp [ht])) u hu3
        · rw [show repScan (w1 :: w2 :: rest2) = w1 :: repScan (w2 :: rest2) from by
            simp only [repScan]; rw [if_neg hcond]]
          intro u hu
          rcases List.mem_cons.mp hu with rfl | hu2
          · exact hts u (by simp)
          · exact ih (w2 :: rest2) (by simp only [List.length_cons] at h ⊢; omega)
              (fun t ht => hts t (by simp [ht])) u hu2

/-- Pattern 1 followed by pattern 2 preserve the canonical word sequence:
the full maze detector never drops, reorders, or alters words beyond markup
parentheses, the comma removed from a comma-separated repetition, and case. -/
theorem detectReps_words_canon (s : List Char) :
    (wordsOf (detectRepetitionsAndMazes s)).map canon = (wordsOf s).map canon := by
  unfold detectRepetitionsAndMazes
  rw [wordsOf_joinSp _ (repScan_tokens (wordsOf (repSub s)).length _ (Nat.le_refl _)
    (fun t ht => wordsOf_token ht))]
  rw [repScan_canon (wordsOf (repSub s)).length _ (Nat.le_refl _)]
  exact (repRew_words (repSub_rew s) []).symm

/-!
### Segmentation preserves the canonical word sequence
-/

theorem dropWhile_eq_self_of (p : Char → Bool) (l : List Char)
    (h : ∀ c ∈ l, p c = false) : l.dropWhile p = l := by
  cases l with
  | nil => rfl
  | cons c rest => simp [List.dropWhile, h c (by simp)]

theorem pyStrip_nonspace (w : List Char) (h : ∀ c ∈ w, isSpaceChar c = false) :
    pyStrip w = w := by
  unfold pyStrip trimLeftBy trimRightBy
  rw [dropWhile_eq_self_of _ _ h,
    dropWhile_eq_self_of _ _ (fun c hc => h c (List.mem_reverse.mp hc)), List.reverse_reverse]

theorem canon_capitalizeChars (w : List Char) : canon (capitalizeChars w) = canon w := by
  unfold canon
  rw [lowerChars_capitalizeChars]

theorem capitalizeChars_token (w : List Char) (hne : w ≠ [])
    (h : ∀ c ∈ w, isSpaceChar c = false) :
    capitalizeChars w ≠ [] ∧ ∀ c ∈ capitalizeChars w, isSpaceChar c = false := by
  cases w with
  | nil => exact absurd rfl hne
  | cons c cs =>
    refine ⟨by simp [capitalizeChars], ?_⟩
    intro a ha
    rcases List.mem_cons.mp ha with rfl | ha2
    · rw [isSpaceChar_asciiToUpper]
      exact h c (by simp)
    · rcases List.mem_map.mp ha2 with ⟨d, hd, rfl⟩
      rw [isSpaceChar_asciiToLower]
      exact h d (by simp [hd])

theorem wordsOf_unit (sp b : List Char) (hsp : ∀ c ∈ sp, isSpaceChar c = false) :
    wordsOf (sp ++ ':' :: ' ' :: b) = (sp ++ [':']) :: wordsOf b := by
  rw [wordsOf, wordsAux_nonspace sp hsp [] (':' :: ' ' :: b)]
  rw [show wordsAux (sp.reverse ++ []) (':' :: ' ' :: b)
      = wordsAux (':' :: (sp.reverse ++ [])) (' ' :: b) from by
    simp [wordsAux, show isSpaceChar ':' = false from by decide]]
  rw [show (' ' :: b) = [' '] ++ b from rfl]
  rw [wordsAux_flush [' '] b (':' :: (sp.reverse ++ [])) (by simp) (by simp [isSpaceChar])
    (by simp)]
  simp [wordsOf]

theorem wordsOf_append_token (cur w : List Char) (hne : w ≠ [])
    (hns : ∀ c ∈ w, isSpaceChar c = false) :
    wordsOf (cur ++ ' ' :: w) = wordsOf cur ++ [w] := by
  rw [wordsOf, wordsAux_append_word cur [] w]
  rw [show wordsAux ([] : List Char) w = wordsOf w from rfl, wordsOf_single w hne hns]
  rfl

theorem segScan_words (speaker : List Char) (hsp : ∀ c ∈ speaker, isSpaceChar c = false) :
    ∀ n ws, ws.length ≤ n → (∀ w ∈ ws, w ≠ [] ∧ ∀ c ∈ w, isSpaceChar c = false) →
    ∀ cur, (((segScan speaker cur ws).map (fun u => (wordsOf u).drop 1)).flatten).map canon
      = (wordsOf cur ++ ws).map canon := by
  intro n
  induction n with
  | zero =>
    intro ws hl hws cur
    have : ws = [] := List.eq_nil_of_length_eq_zero (Nat.le_zero.mp hl)
    subst this
    by_cases hce : (pyStrip cur).isEmpty
    · rw [show segScan speaker cur [] = [] from by simp [segScan, hce]]
      have : wordsOf cur = [] := pyStrip_empty_words (by simpa [List.isEmpty_iff] using hce)
      simp [this]
    · rw [show segScan speaker cur [] = [speaker ++ ':' :: ' ' :: pyStrip cur] from by
        simp [segScan, hce]]
      simp only [List.map_cons, List.map_nil, List.flatten]
      rw [wordsOf_unit speaker (pyStrip cur) hsp]
      simp [wordsOf_pyStrip]
  | succ n ih =>
    intro ws hl hws cur
    cases ws with
    | nil => exact ih [] (by simp) (by simp) cur
    | cons w rest =>
      rcases hws w (by simp) with ⟨hwne, hwns⟩
      have hrest : ∀ u ∈ rest, u ≠ [] ∧ ∀ c ∈ u, isSpaceChar c = false :=
        fun u hu => hws u (by simp [hu])
      have hrl : rest.length ≤ n := by
        simp only [List.length_cons] at hl
        omega
      have hstep : ∀ tail, tail.length ≤ n →
          (∀ u ∈ tail, u ≠ [] ∧ ∀ c ∈ u, isSpaceChar c = false) →
          (((segStep speaker cur w).1 ++ segScan speaker (segStep speaker cur w).2 tail).map
              (fun u => (wordsOf u).drop 1)).flatten.map canon
            = (wordsOf cur ++ (w :: tail)).map canon := by
        intro tail htl htail
        by_cases hcond : (coordinatingConjunctions.contains (segKey w) &&
            !(pyStrip cur).isEmpty) = true
        · rw [show segStep speaker cur w = ([speaker ++ ':' :: ' ' :: pyStrip cur],
              if segKey w = "and".data then capitalizeChars w else w) from by
            simp only [segStep]; rw [if_pos hcond]]
          simp only [List.map_append, List.map_cons, List.map_nil, List.flatten_append,
            List.flatten, List.append_nil, List.append_eq, List.nil_append]
          rw [wordsOf_unit speaker (pyStrip cur) hsp]
          simp only [List.drop_succ_cons, List.drop_zero, List.nil_append]
          by_cases hand : segKey w = "and".data
          · rw [if_pos hand]
            rcases capitalizeChars_token w hwne hwns with ⟨hcne, hcns⟩
            rw [ih tail htl htail (capitalizeChars w)]
            rw [wordsOf_single (capitalizeChars w) hcne hcns]
            simp only [List.map_append, List.map_cons]
            rw [canon_capitalizeChars w, wordsOf_pyStrip]
            simp
          · rw [if_neg hand]
            rw [ih tail htl htail w, wordsOf_single w hwne hwns]
            simp only [List.map_append, List.map_cons]
            rw [wordsOf_pyStrip]
            simp
        · rw [show segStep speaker cur w = ([], cur ++ ' ' :: w) from by
            simp only [segStep]; rw [if_neg hcond]]
          simp only [List.nil_append]
          rw [ih tail htl htail (cur ++ ' ' :: w)]
          rw [wordsOf_append_token cur w hwne hwns]
          simp
      cases rest with
      | nil =>
        rw [show segScan speaker cur [w]
            = (segStep speaker cur w).1 ++ segScan speaker (segStep speaker cur w).2 [] from rfl]
        exact hstep [] (by simp) (by simp)
      | cons r rest2 =>
        rcases hws r (by simp) with ⟨hrne, hrns⟩
        have hr2 : ∀ u ∈ rest2, u ≠ [] ∧ ∀ c ∈ u, isSpaceChar c = false :=
          fun u hu => hws u (by simp [hu])
        have hr2l : rest2.length ≤ n := by
          simp only [List.length_cons] at hl
          omega
        by_cases hsothat : (segKey w = "so".data && segKey r = "that".data) = true
        · rw [show segScan speaker cur (w :: r :: rest2)
              = segScan speaker (cur ++ ' ' :: w ++ ' ' :: r) rest2 from by
            simp only [segScan]; rw [if_pos hsothat]]
          rw [ih rest2 hr2l hr2 (cur ++ ' ' :: w ++ ' ' :: r)]
          rw [wordsOf_append_token (cur ++ ' ' :: w) r hrne hrns,
            wordsOf_append_token cur w hwne hwns]
          simp
        · rw [show segScan speaker cur (w :: r :: rest2)
              = (segStep speaker cur w).1 ++ segScan speaker (segStep speaker cur w).2
                (r :: rest2) from by
            simp only [segScan]; rw [if_neg hsothat]]
          exact hstep (r :: rest2) (by simp only [List.length_cons] at hl ⊢; omega) 
            (fun u hu => hws u (by simp [hu]))

theorem leadsWith_append_self : ∀ p r : List Char, leadsWith p (p ++ r) = true := by
  intro p
  induction p with
  | nil => intro r; rfl
  | cons a ps ih => intro r; simp [leadsWith, ih]

theorem dropWhile_head_false {p : Char → Bool} : ∀ {l : List Char} {c : Char} {r : List Char},
    l.dropWhile p = c :: r → p c = false := by
  intro l
  induction l with
  | nil => intro c r h; cases h
  | cons a l2 ih =>
    intro c r h
    by_cases hp : p a = true
    · rw [List.dropWhile_cons_of_pos hp] at h
      exact ih h
    · rw [List.dropWhile_cons_of_neg hp] at h
      cases h
      simpa using hp

theorem pyStrip_id_first {body : List Char} (hb : pyStrip body = body) (hne : body ≠ []) :
    ∃ d r, body = d :: r ∧ isSpaceChar d = false := by
  have hlen1 : (trimLeftBy isSpaceChar body).length ≤ body.length :=
    List.Sublist.length_le (List.dropWhile_sublist _)
  have hlen2 : body.length ≤ (trimLeftBy isSpaceChar body).length := by
    conv_lhs => rw [← hb]
    unfold pyStrip trimRightBy
    calc ((trimLeftBy isSpaceChar body).reverse.dropWhile isSpaceChar).reverse.length
        = ((trimLeftBy isSpaceChar body).reverse.dropWhile isSpaceChar).length := by
          rw [List.length_reverse]
      _ ≤ (trimLeftBy isSpaceChar body).reverse.length :=
          List.Sublist.length_le (List.dropWhile_sublist _)
      _ = (trimLeftBy isSpaceChar body).length := List.length_reverse _
  have htw : body.takeWhile isSpaceChar = [] := by
    have := congrArg List.length (List.takeWhile_append_dropWhile (p := isSpaceChar) (l := body))
    simp only [List.length_append] at this
    have : (body.takeWhile isSpaceChar).length = 0 := by
      unfold trimLeftBy at hlen1 hlen2
      omega
    exact List.eq_nil_of_length_eq_zero this
  cases hbody : body with
  | nil => exact absurd hbody hne
  | cons d r =>
    refine ⟨d, r, rfl, ?_⟩
    rw [hbody] at htw
    by_cases hd : isSpaceChar d = true
    · rw [List.takeWhile_cons_of_pos hd] at htw
      cases htw
    · simpa using hd

theorem pyStrip_id_last {body : List Char} (hb : pyStrip body = body) (hne : body ≠ []) :
    ∃ d r, body.reverse = d :: r ∧ isSpaceChar d = false := by
  have hrev : body.reverse = (trimLeftBy isSpaceChar body).reverse.dropWhile isSpaceChar := by
    conv_lhs => rw [← hb]
    unfold pyStrip trimRightBy
    rw [List.reverse_reverse]
  cases hr : body.reverse with
  | nil =>
    exact absurd (by simpa using congrArg List.reverse hr) hne
  | cons d r =>
    rw [hr] at hrev
    exact ⟨d, r, rfl, dropWhile_head_false hrev.symm⟩

theorem pyStrip_unit_text (sp body : List Char) (hspne : sp ≠ [])
    (hsp : ∀ c ∈ sp, isSpaceChar c = false) (hb : pyStrip body = body) (hbne : body ≠ []) :
    pyStrip (sp ++ ':' :: ' ' :: body) = sp ++ ':' :: ' ' :: body := by
  rcases pyStrip_id_last hb hbne with ⟨d, r, hdr, hd⟩
  cases sp with
  | nil => exact absurd rfl hspne
  | cons c sp2 =>
    have hc : isSpaceChar c = false := hsp c (by simp)
    unfold pyStrip trimLeftBy trimRightBy
    rw [show (c :: sp2) ++ ':' :: ' ' :: body = c :: (sp2 ++ ':' :: ' ' :: body) from rfl]
    rw [List.dropWhile_cons_of_neg (by simp [hc])]
    rw [show (c :: (sp2 ++ ':' :: ' ' :: body)).reverse
        = d :: (r ++ ([' ', ':'] ++ (sp2.reverse ++ [c]))) from by
      simp only [List.reverse_cons, List.reverse_append]
      rw [hdr]
      simp]
    rw [List.dropWhile_cons_of_neg (by simp [hd])]
    rw [show d :: (r ++ ([' ', ':'] ++ (sp2.reverse ++ [c])))
        = (c :: (sp2 ++ ':' :: ' ' :: body)).reverse from by
      simp only [List.reverse_cons, List.reverse_append]
      rw [hdr]
      simp]
    rw [List.reverse_reverse]

theorem segTokens_unit (sp body : List Char) (hspne : sp ≠ [])
    (hsp : ∀ c ∈ sp, isSpaceChar c = false) (hb : pyStrip body = body) (hbne : body ≠ []) :
    segTokens (sp ++ ':' :: ' ' :: body) sp = wordsOf body := by
  rcases pyStrip_id_first hb hbne with ⟨d, r, hdr, hd⟩
  rcases pyStrip_id_last hb hbne with ⟨e, q, heq2, he⟩
  unfold segTokens
  dsimp only []
  rw [pyStrip_unit_text sp body hspne hsp hb hbne]
  rw [show sp ++ ':' :: ' ' :: body = (sp ++ [':']) ++ (' ' :: body) from by simp]
  rw [show leadsWith (sp ++ [':']) ((sp ++ [':']) ++ (' ' :: body)) = true from
    leadsWith_append_self _ _]
  simp only [if_true]
  rw [show sp.length + 1 = (sp ++ [':']).length from by simp]
  rw [List.drop_left]
  rw [show pyStrip (' ' :: body) = body from by
    unfold pyStrip trimLeftBy trimRightBy
    rw [List.dropWhile_cons_of_pos (by decide)]
    conv_lhs => rw [hdr]
    rw [List.dropWhile_cons_of_neg (by simp [hd]), ← hdr]
    conv_lhs => rw [heq2]
    rw [List.dropWhile_cons_of_neg (by simp [he]), ← heq2, List.reverse_reverse]]

/-- `segment_cunits` preserves the canonical word sequence of the utterance
body: no word is dropped, reordered, or altered beyond the capitalization of
a segment-initial conjunction. -/
theorem segmentCunits_words_canon (sp body : List Char) (hspne : sp ≠ [])
    (hsp : ∀ c ∈ sp, isSpaceChar c = false) (hb : pyStrip body = body) (hbne : body ≠ []) :
    (((segmentCunits (sp ++ ':' :: ' ' :: body) sp).map unitBodyWords).flatten).map canon
      = (wordsOf body).map canon := by
  have htext : pyStrip (sp ++ ':' :: ' ' :: body) = sp ++ ':' :: ' ' :: body :=
    pyStrip_unit_text sp body hspne hsp hb hbne
  have hwordsText : wordsOf (sp ++ ':' :: ' ' :: body) = (sp ++ [':']) :: wordsOf body :=
    wordsOf_unit sp body hsp
  have hne2 : (pyStrip (sp ++ ':' :: ' ' :: body)).isEmpty = false := by
    rw [htext]
    cases sp with
    | nil => exact absurd rfl hspne
    | cons c sp2 => rfl
  unfold segmentCunits
  rw [hne2]
  simp only [Bool.false_eq_true, if_false]
  rw [segTokens_unit sp body hspne hsp hb hbne]
  have hmain := segScan_words sp hsp (wordsOf body).length (wordsOf body) (Nat.le_refl _)
    (fun w hw => wordsOf_token hw) []
  by_cases hsegs : (segScan sp [] (wordsOf body)).isEmpty
  · rw [if_pos hsegs]
    simp only [List.map_cons, List.map_nil, List.flatten_cons, List.flatten_nil]
    rw [show unitBodyWords (sp ++ ':' :: ' ' :: body) = wordsOf body from by
      unfold unitBodyWords
      rw [hwordsText]
      rfl]
    rw [List.append_nil]
  · rw [if_neg hsegs]
    rw [show (segScan sp [] (wordsOf body)).map unitBodyWords
        = (segScan sp [] (wordsOf body)).map (fun u => (wordsOf u).drop 1) from rfl]
    rw [hmain]
    rw [show wordsOf ([] : List Char) = [] from rfl, List.nil_append]

/-!
### No-split token lists, comma-free inputs, and the split step
-/

theorem segScan_noSplit (speaker : List Char) :
    ∀ n ws, ws.length ≤ n → noSplitTokens ws = true →
    ∀ cur, (segScan speaker cur ws).length ≤ 1 := by
  intro n
  induction n with
  | zero =>
    intro ws hl hn cur
    have : ws = [] := List.eq_nil_of_length_eq_zero (Nat.le_zero.mp hl)
    subst this
    by_cases hce : (pyStrip cur).isEmpty <;> simp [segScan, hce]
  | succ n ih =>
    intro ws hl hn cur
    cases ws with
    | nil =>
      by_cases hce : (pyStrip cur).isEmpty <;> simp [segScan, hce]
    | cons w rest =>
      cases rest with
      | nil =>
        have hco : coordinatingConjunctions.contains (segKey w) = false := by
          by_cases hc2 : coordinatingConjunctions.contains (segKey w) = true
          · rw [show noSplitTokens [w] = false from by
              simp only [noSplitTokens]
              rw [if_pos hc2]] at hn
            cases hn
          · simpa using hc2
        rw [show segScan speaker cur [w]
            = (segStep speaker cur w).1 ++ segScan speaker (segStep speaker cur w).2 [] from rfl]
        rw [show segStep speaker cur w = ([], cur ++ ' ' :: w) from by
          simp only [segStep]
          rw [if_neg (by rw [hco]; simp)]]
        simp only [List.nil_append]
        exact ih [] (by simp) rfl _
      | cons r rest2 =>
        by_cases hsothat : (segKey w = "so".data && segKey r = "that".data) = true
        · have hso : segKey w = "so".data := by
            revert hsothat
            by_cases ha : segKey w = "so".data <;> simp [ha]
          have hco : coordinatingConjunctions.contains (segKey w) = true := by
            rw [hso]
            decide
          have hn2 : noSplitTokens rest2 = true := by
            rw [show noSplitTokens (w :: r :: rest2)
                = (segKey w = "so".data && segKey r = "that".data && noSplitTokens rest2 : Bool)
              from by
                simp only [noSplitTokens]
                rw [if_pos hco]] at hn
            revert hn
            cases noSplitTokens rest2 <;> simp_all
          rw [show segScan speaker cur (w :: r :: rest2)
              = segScan speaker (cur ++ ' ' :: w ++ ' ' :: r) rest2 from by
            simp only [segScan]; rw [if_pos hsothat]]
          exact ih rest2 (by simp only [List.length_cons] at hl ⊢; omega) hn2 _
        · have hco : coordinatingConjunctions.contains (segKey w) = false := by
            by_cases hc2 : coordinatingConjunctions.contains (segKey w) = true
            · exfalso
              rw [show noSplitTokens (w :: r :: rest2)
                  = (segKey w = "so".data && segKey r = "that".data && noSplitTokens rest2 : Bool)
                from by
                  simp only [noSplitTokens]
                  rw [if_pos hc2]] at hn
              revert hn
              simp only [Bool.and_eq_true, decide_eq_true_eq]
              rintro ⟨⟨ha, hb⟩, _⟩
              exact hsothat (by simp [ha, hb])
            · simpa using hc2
          have hn2 : noSplitTokens (r :: rest2) = true := by
            rw [show noSplitTokens (w :: r :: rest2) = noSplitTokens (r :: rest2) from by
              simp only [noSplitTokens]
              rw [if_neg (by rw [hco]; simp)]] at hn
            exact hn
          rw [show segScan speaker cur (w :: r :: rest2)
              = (segStep speaker cur w).1 ++ segScan speaker (segStep speaker cur w).2
                (r :: rest2) from by
            simp only [segScan]; rw [if_neg hsothat]]
          rw [show segStep speaker cur w = ([], cur ++ ' ' :: w) from by
            simp only [segStep]
            rw [if_neg (by rw [hco]; simp)]]
          simp only [List.nil_append]
          exact ih (r :: rest2) (by simp only [List.length_cons] at hl ⊢; omega) hn2 _

theorem segmentCunits_noSplit (text sp : List Char)
    (h : noSplitTokens (segTokens text sp) = true) :
    (segmentCunits text sp).length = 1 := by
  unfold segmentCunits
  by_cases h1 : (pyStrip text).isEmpty
  · rw [if_pos h1]
    rfl
  · rw [if_neg h1]
    have hlen := segScan_noSplit sp (segTokens text sp).length (segTokens text sp)
      (Nat.le_refl _) h []
    rcases hscan : segScan sp [] (segTokens text sp) with _ | ⟨u, _ | ⟨v, rest⟩⟩
    · simp [hscan]
    · simp [hscan]
    · rw [hscan] at hlen
      simp at hlen

theorem tryMatchRep_some_comma {s : List Char} {x : List Char × Nat}
    (h : tryMatchRep s = some x) : ',' ∈ s := by
  unfold tryMatchRep at h
  rcases hsplit : s.dropWhile isWordChar with _ | ⟨c1, r2⟩ <;> rw [hsplit] at h <;>
    dsimp only [] at h
  · cases h
  · by_cases hcomma : c1 = ','
    · subst hcomma
      have hmem : ',' ∈ s.dropWhile isWordChar := by
        rw [hsplit]
        simp
      exact (List.dropWhile_sublist _).subset hmem
    · rw [if_neg hcomma] at h
      cases h

theorem repSub_no_comma (s : List Char) (h : ',' ∉ s) : repSub s = s := by
  suffices h2 : ∀ n t, t.length ≤ n → ',' ∉ t → ∀ p, repSubGo p 0 t = t from
    h2 s.length s (Nat.le_refl _) h false
  intro n
  induction n with
  | zero =>
    intro t hl hnc p
    have : t = [] := List.eq_nil_of_length_eq_zero (Nat.le_zero.mp hl)
    subst this
    rfl
  | succ n ih =>
    intro t hl hnc p
    cases t with
    | nil => rfl
    | cons c rest =>
      have hrl : rest.length ≤ n := by
        simp only [List.length_cons] at hl
        omega
      have hrc : ',' ∉ rest := fun hm => hnc (List.mem_cons_of_mem c hm)
      have htm : tryMatchRep (c :: rest) = none := by
        rcases h2 : tryMatchRep (c :: rest) with _ | x
        · rfl
        · exact absurd (tryMatchRep_some_comma h2) hnc
      by_cases hcp : (isWordChar c && !p) = true
      · rw [show repSubGo p 0 (c :: rest) = c :: repSubGo (isWordChar c) 0 rest from by
          simp [repSubGo, hcp, htm]]
        rw [ih rest hrl hrc _]
      · rw [show repSubGo p 0 (c :: rest) = c :: repSubGo (isWordChar c) 0 rest from by
          simp only [repSubGo]
          rw [if_neg hcp]]
        rw [ih rest hrl hrc _]

theorem segScan_split_step (sp cur w : List Char) (rest : List (List Char))
    (h1 : coordinatingConjunctions.contains (segKey w) = true)
    (h2 : ¬(segKey w = "so".data ∧ rest.head?.map segKey = some "that".data))
    (h3 : (pyStrip cur).isEmpty = false) :
    segScan sp cur (w :: rest) = (sp ++ ':' :: ' ' :: pyStrip cur) ::
      segScan sp (if segKey w = "and".data then capitalizeChars w else w) rest := by
  have hstep : segStep sp cur w = ([sp ++ ':' :: ' ' :: pyStrip cur],
      if segKey w = "and".data then capitalizeChars w else w) := by
    simp only [segStep]
    rw [if_pos (by rw [h1, h3]; rfl)]
  cases rest with
  | nil =>
    rw [show segScan sp cur [w]
        = (segStep sp cur w).1 ++ segScan sp (segStep sp cur w).2 [] from rfl, hstep]
    rfl
  | cons r rest2 =>
    have hsothat : (segKey w = "so".data && segKey r = "that".data) = false := by
      by_cases ha : segKey w = "so".data
      · by_cases hb2 : segKey r = "that".data
        · exact absurd ⟨ha, by simp [hb2]⟩ h2
        · simp [ha, hb2]
      · simp [ha]
    rw [show segScan sp cur (w :: r :: rest2)
        = (segStep sp cur w).1 ++ segScan sp (segStep sp cur w).2 (r :: rest2) from by
      simp only [segScan]; rw [if_neg (by simp [hsothat])], hstep]
    rfl

/-!
### Assembler line-step lemmas
-/

theorem stepLine_no_marker (st : PState) (idx : Nat) (line : List Char)
    (h0 : idx ≠ 0) (h1 : searchTimestamp (pyStrip line) = none)
    (h2 : (pyStrip line).isEmpty = false) :
    stepLine st idx line = { st with acc := st.acc ++ [cleanText (pyStrip line)] } := by
  unfold stepLine
  dsimp only []
  rw [h2]
  simp only [Bool.false_eq_true, if_false]
  rw [if_neg (by simp [h0])]
  rw [h1]

theorem stepLine_marker_no_speaker (st : PState) (idx : Nat) (line ts after : List Char)
    (h0 : idx ≠ 0) (h1 : searchTimestamp (pyStrip line) = some (ts, after))
    (h2 : (pyStrip line).isEmpty = false)
    (h3 : (pyStrip after).isEmpty = false)
    (h4 : speakerOf (cleanText (pyStrip after)) = none) :
    stepLine st idx line =
      { prevTs := some ((parseTimestamp ('[' :: ts ++ [']'])).getD (0, 0, 0)),
        prevSpeaker := st.prevSpeaker,
        acc := st.acc ++ assemblerTimeLines st.prevTs
            ((parseTimestamp ('[' :: ts ++ [']'])).getD (0, 0, 0))
          ++ [cleanText (pyStrip after)] } := by
  unfold stepLine
  dsimp only []
  rw [h2]
  simp only [Bool.false_eq_true, if_false]
  rw [if_neg (by simp [h0])]
  rw [h1]
  dsimp only []
  rw [h3]
  simp only [Bool.false_eq_true, if_false]
  rw [h4]

/-!
# Claim theorems
-/

/-- C10: the filled-pause detector is not idempotent: applying it twice to
"um" wraps the already-marked token again, because stripping non-word
characters from "(um" yields the vocabulary member "um"; so the detector
composed with itself differs from a single application. -/
theorem claim_C10_theorem :
    detectFilledPausesEnhanced "um".data = "(um [FP])".data ∧
    detectFilledPausesEnhanced (detectFilledPausesEnhanced "um".data)
      = "((um [FP]) [FP])".data ∧
    fpKey "(um".data = "um".data ∧
    detectFilledPausesEnhanced (detectFilledPausesEnhanced "um".data)
      ≠ detectFilledPausesEnhanced "um".data := by
  decide

/-- C7: a word whose alphanumeric-stripped lower-cased form is in the
filled-pause vocabulary is always wrapped (with one trailing punctuation
mark kept outside the markup span), and a word outside the vocabulary is
never wrapped. -/
theorem claim_C7_theorem :
    (∀ (w : List Char) (p : Char), filledPauses.contains (fpKey w) = true →
      w.getLast? = some p → (p = ',' ∨ p = '.' ∨ p = '!' ∨ p = '?') →
      fpWord w = ('(' :: w.dropLast ++ " [FP])".data) ++ [p]) ∧
    (∀ (w : List Char) (p : Char), filledPauses.contains (fpKey w) = true →
      w.getLast? = some p → ¬(p = ',' ∨ p = '.' ∨ p = '!' ∨ p = '?') →
      fpWord w = '(' :: w ++ " [FP])".data) ∧
    (∀ w : List Char, filledPauses.contains (fpKey w) = false → fpWord w = w) ∧
    detectFilledPausesEnhanced "so um, yeah uh oh.".data
      = "so (um [FP]), yeah (uh [FP]) (oh [FP]).".data := by
  refine ⟨?_, ?_, ?_, by decide⟩
  · intro w p hv hl hp
    unfold fpWord
    rw [hv, hl]
    simp only [if_true]
    rw [if_pos (by rcases hp with rfl | rfl | rfl | rfl <;> simp)]
  · intro w p hv hl hp
    unfold fpWord
    rw [hv, hl]
    simp only [if_true]
    rw [if_neg (by simp only [Bool.or_eq_true, decide_eq_true_eq]; tauto)]
  · intro w hv
    unfold fpWord
    rw [hv]
    simp

/-- C7 witness: the vocabulary word "um," with its trailing comma. -/
theorem claim_C7_witness :
    filledPauses.contains (fpKey "um,".data) = true ∧
    fpWord "um,".data = ('(' :: "um,".data.dropLast ++ " [FP])".data) ++ [','] :=
  ⟨by decide, claim_C7_theorem.1 "um,".data ',' (by decide) (by decide) (Or.inl rfl)⟩

/-- C1 counterexample: the specified utterance yields three C-units, not
two — the code also splits at the "and" of "go and get dressed". -/
theorem claim_C1_counterexample :
    segmentCunits breakfastUtterance "P".data =
      ["P: Let".data ++ apos :: "s go".data, "P: And get dressed".data,
       "P: And we".data ++ apos :: "ll get some breakfast.".data] ∧
    (segmentCunits breakfastUtterance "P".data).length ≠ 2 := by
  decide

/-- C1 (amended): the example produces exactly three C-units, the second and
third beginning with "And"; in general a coordinating-conjunction token with
a non-empty buffer closes the current segment as `speaker: buffer` and starts
a new segment with the conjunction token, capitalized when its key is "and". -/
theorem claim_C1_theorem :
    segmentCunits breakfastUtterance "P".data =
      ["P: Let".data ++ apos :: "s go".data, "P: And get dressed".data,
       "P: And we".data ++ apos :: "ll get some breakfast.".data] ∧
    (∀ (sp cur w : List Char) (rest : List (List Char)),
      coordinatingConjunctions.contains (segKey w) = true →
      ¬(segKey w = "so".data ∧ rest.head?.map segKey = some "that".data) →
      (pyStrip cur).isEmpty = false →
      segScan sp cur (w :: rest) = (sp ++ ':' :: ' ' :: pyStrip cur) ::
        segScan sp (if segKey w = "and".data then capitalizeChars w else w) rest) :=
  ⟨by decide, segScan_split_step⟩

/-- C1 witness: one concrete split step at the token "and,". -/
theorem claim_C1_witness :
    coordinatingConjunctions.contains (segKey "and,".data) = true ∧
    (pyStrip " go".data).isEmpty = false ∧
    segScan "P".data " go".data ["and,".data, "up.".data] =
      ("P: go".data) :: segScan "P".data (capitalizeChars "and,".data) ["up.".data] := by
  have hne : ¬(segKey "and,".data = "so".data ∧
      ((["up.".data] : List (List Char)).head?.map segKey) = some "that".data) := by decide
  have h := claim_C1_theorem.2 "P".data " go".data "and,".data ["up.".data] (by decide) hne
    (by decide)
  rw [if_pos (by decide)] at h
  exact ⟨by decide, by decide, h⟩

/-- C2 counterexample: an elapsed duration of 4 seconds is displayed as
`; :03` (capped inside the 2-5 second bucket), not as `round(4) = 4`. -/
theorem claim_C2_counterexample :
    processTranscript "[00:00:10] P: hi\n[00:00:14] P: yo".data "t.txt".data =
      ("t\n\n-0:10\nP: hi\n; :03\nP: yo\n\n".data ++ endMarker) ∧
    improvePauseTiming 4 = "; :03".data ∧
    "; :0".data ++ intStr 4 = "; :04".data ∧
    improvePauseTiming 4 ≠ "; :0".data ++ intStr 4 := by
  decide

/-- C2 (amended): an integer elapsed duration below the 1.5-second threshold
yields no pause marker and one at or above it yields a timed-pause code; the
displayed duration is bucketed — `min(d,3)` for `d<5`, `min(d,6)` for `d<10`,
`min(d,16)` otherwise — and always renders as a fixed two-digit zero-padded
field (the full code has length 5). -/
theorem claim_C2_theorem :
    (∀ d : Int, d ≤ 1 → significantPause d = false) ∧
    (∀ d : Int, 2 ≤ d → significantPause d = true) ∧
    (∀ d : Int, 2 ≤ d → d < 5 → improvePauseTiming d = "; :0".data ++ intStr (pyMin d 3)) ∧
    (∀ d : Int, 5 ≤ d → d < 10 → improvePauseTiming d = "; :0".data ++ intStr (pyMin d 6)) ∧
    (∀ d : Int, 10 ≤ d → improvePauseTiming d = "; :".data ++ pad2 (pyMin d 16)) ∧
    (∀ d : Int, 2 ≤ d → (improvePauseTiming d).length = 5) ∧
    improvePauseTiming 2 = "; :02".data ∧ improvePauseTiming 4 = "; :03".data ∧
    improvePauseTiming 7 = "; :06".data ∧ improvePauseTiming 1000 = "; :16".data := by
  refine ⟨?_, ?_, ?_, ?_, ?_, ?_, by decide, by decide, by decide, by decide⟩
  · intro d h
    simp only [significantPause, decide_eq_false_iff_not]
    omega
  · intro d h
    simp only [significantPause, decide_eq_true_eq]
    omega
  · intro d h1 h2
    unfold improvePauseTiming
    rw [if_neg (by omega), if_pos h2]
  · intro d h1 h2
    unfold improvePauseTiming
    rw [if_neg (by omega), if_neg (by omega), if_pos h2]
  · intro d h1
    unfold improvePauseTiming
    rw [if_neg (by omega), if_neg (by omega), if_neg (by omega)]
  · intro d h
    by_cases h5 : d < 5
    · have hc : d = 2 ∨ d = 3 ∨ d = 4 := by omega
      rcases hc with rfl | rfl | rfl <;> decide
    · by_cases h10 : d < 10
      · have hc : d = 5 ∨ d = 6 ∨ d = 7 ∨ d = 8 ∨ d = 9 := by omega
        rcases hc with rfl | rfl | rfl | rfl | rfl <;> decide
      · by_cases h16 : d ≤ 16
        · have hc : d = 10 ∨ d = 11 ∨ d = 12 ∨ d = 13 ∨ d = 14 ∨ d = 15 ∨ d = 16 := by
            omega
          rcases hc with rfl | rfl | rfl | rfl | rfl | rfl | rfl <;> decide
        · have hmin : pyMin d 16 = 16 := by
            unfold pyMin
            rw [if_neg (by omega)]
          unfold improvePauseTiming
          rw [if_neg (by omega), if_neg (by omega), if_neg (by omega), hmin]
          decide

/-- C2 witness: an elapsed duration of 1 second produces no pause marker. -/
theorem claim_C2_witness : ((1 : Int) ≤ 1) ∧ significantPause 1 = false :=
  ⟨by decide, claim_C2_theorem.1 1 (by decide)⟩

/-- C3 counterexample: the code runs the Morphological Marker before the
Disfluency Detector, so on "helped help/ed" the detector sees an immediate
repetition and wraps it, while the specified order (normalize, detect
disfluencies, then mark morphology) would produce no maze markup. -/
theorem claim_C3_counterexample :
    specOrderClean "helped help/ed".data = "help/ed help/ed".data ∧
    cleanText "helped help/ed".data = "(help/ed) help/ed".data ∧
    processTranscript "[00:00:01] P: helped help/ed".data "t.txt".data =
      ("t\n\n-0:01\nP: (help/ed) help/ed\n\n".data ++ endMarker) ∧
    cleanText "helped help/ed".data ≠ specOrderClean "helped help/ed".data := by
  decide

/-- C3 (amended): marker-line content is processed through the Lexical
Normalizer stages, then the Morphological Marker, then the Disfluency
Detector (repetitions, then filled pauses), then the space-before-punctuation
cleanup, and finally the C-Unit Segmenter. -/
theorem claim_C3_theorem :
    (∀ s : List Char, cleanText s = fixPunctSpace (detectFilledPausesEnhanced
      (detectRepetitionsAndMazes (applyMorphologicalMarking (handleRedactions
        (normalizeSpeakers (collapseWS (pyStrip s)))))))) ∧
    processTranscript "[00:00:01] P: helped help/ed".data "t.txt".data =
      ("t\n\n-0:01\nP: (help/ed) help/ed\n\n".data ++ endMarker) :=
  ⟨fun _ => rfl, by decide⟩

/-- C3 witness: the stage order instantiated at a concrete content string. -/
theorem claim_C3_witness :
    cleanText "he looked um".data = fixPunctSpace (detectFilledPausesEnhanced
      (detectRepetitionsAndMazes (applyMorphologicalMarking (handleRedactions
        (normalizeSpeakers (collapseWS (pyStrip "he looked um".data))))))) :=
  claim_C3_theorem.1 "he looked um".data

/-- C4 counterexample: on "I, I do not" the maze detector drops the comma of
the first "I,», so the multiset of non-markup words of the output differs
from the multiset of words of the utterance. -/
theorem claim_C4_counterexample :
    detectRepetitionsAndMazes "I, I do not".data = "(I) I do not".data ∧
    ¬ (plainWords "(I) I do not".data).Perm (wordsOf "I, I do not".data) := by
  decide

/-- C4 (amended): disfluency markup insertion and conjunction-driven
segmentation never drop, reorder, or alter real words beyond the inserted
markup parentheses, the comma removed from a comma-separated repetition, and
letter case: the canonical word sequences (case-folded, parentheses removed,
trailing commas dropped) of input and output agree, in order. -/
theorem claim_C4_theorem :
    (∀ s : List Char,
      (wordsOf (detectRepetitionsAndMazes s)).map canon = (wordsOf s).map canon) ∧
    (∀ sp body : List Char, sp ≠ [] → (∀ c ∈ sp, isSpaceChar c = false) →
      pyStrip body = body → body ≠ [] →
      (((segmentCunits (sp ++ ':' :: ' ' :: body) sp).map unitBodyWords).flatten).map canon
        = (wordsOf body).map canon) :=
  ⟨detectReps_words_canon, segmentCunits_words_canon⟩

/-- C4 witness: word preservation of segmentation on a concrete utterance. -/
theorem claim_C4_witness :
    ("P".data ≠ []) ∧ pyStrip "I looked and ran.".data = "I looked and ran.".data ∧
    (((segmentCunits ("P".data ++ ':' :: ' ' :: "I looked and ran.".data) "P".data).map
        unitBodyWords).flatten).map canon = (wordsOf "I looked and ran.".data).map canon :=
  ⟨by decide, by decide, claim_C4_theorem.2 "P".data "I looked and ran.".data (by decide)
    (by decide) (by decide) (by decide)⟩

/-- C5: subordinating conjunctions never trigger a split (they are disjoint
from the coordinating set and absorbed into the buffer), "so that" never
triggers a split although "so" alone is coordinating, and the two example
utterances each yield exactly one C-unit. -/
theorem claim_C5_theorem :
    segmentCunits
        "Av: When the boy looked in the jar he saw that the frog was missing.".data
        "Av".data =
      ["Av: When the boy looked in the jar he saw that the frog was missing.".data] ∧
    (∀ w ∈ subordinatingConjunctions, coordinatingConjunctions.contains w = false) ∧
    (∀ text sp : List Char, noSplitTokens (segTokens text sp) = true →
      (segmentCunits text sp).length = 1) ∧
    coordinatingConjunctions.contains "so".data = true ∧
    segmentCunits "P: I hid so that he could find me.".data "P".data =
      ["P: I hid so that he could find me.".data] := by
  refine ⟨by decide, by decide, ?_, by decide, by decide⟩
  intro text sp h
  exact segmentCunits_noSplit text sp h

/-- C5 witness: a subordinated utterance yields a single C-unit. -/
theorem claim_C5_witness :
    noSplitTokens (segTokens "P: I waited until he left.".data "P".data) = true ∧
    (segmentCunits "P: I waited until he left.".data "P".data).length = 1 :=
  ⟨by decide, claim_C5_theorem.2.2.1 "P: I waited until he left.".data "P".data (by decide)⟩

/-- C6 counterexample: on "go go go" the second and third words are adjacent,
identical and outside the stop set, yet the second word is emitted bare (the
scan resumes after a wrapped pair), so the claim's universal wrapping rule
fails. -/
theorem claim_C6_counterexample :
    detectRepetitionsAndMazes "go go go".data = "(go) go go".data ∧
    repKey "go".data = repKey "go".data ∧
    repStopSet.contains (repKey "go".data) = false ∧
    (wordsOf (detectRepetitionsAndMazes "go go go".data))[1]? = some "go".data ∧
    some "go".data ≠ some ('(' :: "go".data ++ [')']) := by
  decide

/-- C6 (amended): the repetition scan proceeds left to right without
overlapping pairs; an adjacent identical pair (case-insensitive after
stripping trailing punctuation, outside the stop set) that the scan reaches
has its first word wrapped and its second left bare, and "I, I do not"
yields "(I) I do not". -/
theorem claim_C6_theorem :
    detectRepetitionsAndMazes "I, I do not".data = "(I) I do not".data ∧
    detectRepetitionsAndMazes "go go go".data = "(go) go go".data ∧
    (∀ w1 w2 : List Char, w1 ≠ [] → w2 ≠ [] →
      (∀ c ∈ w1, isSpaceChar c = false) → (∀ c ∈ w2, isSpaceChar c = false) →
      ',' ∉ w1 → ',' ∉ w2 →
      repKey w1 = repKey w2 → repStopSet.contains (repKey w1) = false →
      detectRepetitionsAndMazes (w1 ++ ' ' :: w2) = '(' :: w1 ++ ')' :: ' ' :: w2) := by
  refine ⟨by decide, by decide, ?_⟩
  intro w1 w2 h1 h2 h3 h4 h5 h6 h7 h8
  unfold detectRepetitionsAndMazes
  rw [repSub_no_comma _ (by
    intro hm
    rcases List.mem_append.mp hm with hm1 | hm2
    · exact h5 hm1
    · rcases List.mem_cons.mp hm2 with he | hm3
      · cases he
      · exact h6 hm3)]
  rw [show wordsOf (w1 ++ ' ' :: w2) = [w1, w2] from by
    rw [wordsOf_append_token w1 w2 h2 h4]
    rw [show wordsOf w1 = [w1] from wordsOf_single w1 h1 h3]
    rfl]
  rw [show repScan [w1, w2] = ('(' :: w1 ++ [')']) :: [w2] from by
    simp only [repScan]
    rw [if_pos (by
      have h8b : repStopSet.contains (repKey w2) = false := h7 ▸ h8
      rw [h7, h8b]
      simp)]]
  show ('(' :: w1 ++ [')']) ++ ' ' :: w2 = '(' :: w1 ++ ')' :: ' ' :: w2
  simp

/-- C6 witness: a concrete non-stop adjacent pair is wrapped. -/
theorem claim_C6_witness :
    ("yes".data ≠ []) ∧
    detectRepetitionsAndMazes ("yes".data ++ ' ' :: "yes".data)
      = '(' :: "yes".data ++ ')' :: ' ' :: "yes".data :=
  ⟨by decide, claim_C6_theorem.2.2 "yes".data "yes".data (by decide) (by decide) (by decide)
    (by decide) (by decide) (by decide) (by decide) (by decide)⟩

/-!
### Digit characters and the assembler's timestamp strings
-/

theorem isDigit_toNat (c : Char) (h : c.isDigit = true) : 48 ≤ c.toNat ∧ c.toNat ≤ 57 := by
  simp only [Char.isDigit, Bool.and_eq_true, decide_eq_true_eq, ge_iff_le, u32_le_toNat] at h
  exact ⟨by simpa [Char.toNat] using h.1, by simpa [Char.toNat] using h.2⟩

theorem digit_ne (c : Char) (h : c.isDigit = true) :
    c ≠ '[' ∧ c ≠ ']' ∧ c ≠ ':' ∧ c ≠ '+' ∧ c ≠ '-' ∧ c ≠ '_' ∧ isSpaceChar c = false := by
  rcases isDigit_toNat c h with ⟨hl, hr⟩
  refine ⟨?_, ?_, ?_, ?_, ?_, ?_, isSpaceChar_of_toNat (by omega)⟩
  · exact char_toNat_ne (by rw [show ('[' : Char).toNat = 91 from by decide]; omega)
  · exact char_toNat_ne (by rw [show (']' : Char).toNat = 93 from by decide]; omega)
  · exact char_toNat_ne (by rw [show (':' : Char).toNat = 58 from by decide]; omega)
  · exact char_toNat_ne (by rw [show ('+' : Char).toNat = 43 from by decide]; omega)
  · exact char_toNat_ne (by rw [show ('-' : Char).toNat = 45 from by decide]; omega)
  · exact char_toNat_ne (by rw [show ('_' : Char).toNat = 95 from by decide]; omega)

theorem digit_not_bracket (c : Char) (h : c.isDigit = true) :
    ((['[', ']'] : List Char).contains c) = false := by
  rcases digit_ne c h with ⟨h1, h2, _⟩
  simp [List.contains, h1, h2]

theorem pyInt_two_digits (x y : Char) (hx : x.isDigit = true) (hy : y.isDigit = true) :
    pyInt [x, y] = some (Int.ofNat ((x.toNat - 48) * 10 + (y.toNat - 48))) := by
  rcases digit_ne x hx with ⟨_, _, _, hxp, hxm, _, hxs⟩
  rcases digit_ne y hy with ⟨_, _, _, _, _, hyu, hys⟩
  unfold pyInt
  rw [show pyStrip [x, y] = [x, y] from pyStrip_nonspace _ (by
    intro c hc
    rcases List.mem_cons.mp hc with rfl | hc2
    · exact hxs
    · rcases List.mem_singleton.mp hc2 with rfl
      exact hys)]
  dsimp only
  rw [if_neg hxp, if_neg hxm]
  unfold pyIntStart
  dsimp only
  rw [if_pos hx]
  unfold pyIntDigits
  dsimp only
  rw [if_neg hyu, if_pos hy]
  rfl

/-- C8 counterexample: the malformed marker "a:b:c" has exactly three colon
fields, so `int()` is applied to a non-numeric field and raises (modelled by
`none`) instead of returning the zero timestamp. -/
theorem claim_C8_counterexample :
    parseTimestamp "a:b:c".data = none ∧ parseTimestamp "a:b:c".data ≠ some (0, 0, 0) := by
  decide

/-- C8 (amended): a marker string that does not split into exactly three
colon-separated fields yields the zero timestamp without failing; a
three-field string with a non-numeric field raises `ValueError` (the only
fallible core path), and the digit-only markers the assembler extracts with
its regex always parse successfully. -/
theorem claim_C8_theorem :
    (∀ s : List Char, (splitOnChar ':' (pyStripSet ['[', ']'] s)).length ≠ 3 →
      parseTimestamp s = some (0, 0, 0)) ∧
    (∀ a b c d e f : Char, a.isDigit = true → b.isDigit = true → c.isDigit = true →
      d.isDigit = true → e.isDigit = true → f.isDigit = true →
      (parseTimestamp ('[' :: a :: b :: ':' :: c :: d :: ':' :: e :: f :: [']'])).isSome
        = true) := by
  constructor
  · intro s h
    unfold parseTimestamp
    rcases hp : splitOnChar ':' (pyStripSet ['[', ']'] s) with _ | ⟨a, _ | ⟨b, _ | ⟨c, _ | ⟨x, rest⟩⟩⟩⟩
    · rfl
    · rfl
    · rfl
    · rw [hp] at h; exact absurd rfl h
    · rfl
  · intro a b c d e f ha hb hc hd he hf
    have hstrip : pyStripSet ['[', ']'] ('[' :: a :: b :: ':' :: c :: d :: ':' :: e :: f :: [']'])
        = a :: b :: ':' :: c :: d :: ':' :: e :: f :: [] := by
      unfold pyStripSet trimLeftBy trimRightBy
      rw [List.dropWhile_cons_of_pos (by decide)]
      rw [List.dropWhile_cons_of_neg (by
        simp
        exact ⟨(digit_ne a ha).1, (digit_ne a ha).2.1⟩)]
      rw [show (a :: b :: ':' :: c :: d :: ':' :: e :: f :: [']']).reverse
          = ']' :: f :: e :: ':' :: d :: c :: ':' :: b :: [a] from by
        simp]
      rw [List.dropWhile_cons_of_pos (by decide)]
      rw [List.dropWhile_cons_of_neg (by
        simp
        exact ⟨(digit_ne f hf).1, (digit_ne f hf).2.1⟩)]
      simp
    have hca : ¬ a = ':' := (digit_ne a ha).2.2.1
    have hcb : ¬ b = ':' := (digit_ne b hb).2.2.1
    have hcc : ¬ c = ':' := (digit_ne c hc).2.2.1
    have hcd : ¬ d = ':' := (digit_ne d hd).2.2.1
    have hce : ¬ e = ':' := (digit_ne e he).2.2.1
    have hcf : ¬ f = ':' := (digit_ne f hf).2.2.1
    have hsplitc : splitOnChar ':' (a :: b :: ':' :: c :: d :: ':' :: e :: f :: [])
        = [[a, b], [c, d], [e, f]] := by
      simp [splitOnChar, hca, hcb, hcc, hcd, hce, hcf]
    unfold parseTimestamp
    rw [hstrip, hsplitc]
    dsimp only
    rw [pyInt_two_digits a b ha hb, pyInt_two_digits c d hc hd, pyInt_two_digits e f he hf]
    rfl

/-- C8 witness: a marker with the wrong field count degrades to (0,0,0). -/
theorem claim_C8_witness :
    (splitOnChar ':' (pyStripSet ['[', ']'] "nonsense".data)).length ≠ 3 ∧
    parseTimestamp "nonsense".data = some (0, 0, 0) :=
  ⟨by decide, claim_C8_theorem.1 "nonsense".data (by decide)⟩

/-- C9 counterexample: a continuation line is run through the full
`clean_text` pipeline — including morphological marking and filled-pause
markup — not through the Lexical Normalizer only. -/
theorem claim_C9_counterexample :
    processTranscript "[00:00:01] P: hi\nhe looked um".data "t.txt".data =
      ("t\n\n-0:01\nP: hi\nhe look/ed (um [FP])\n\n".data ++ endMarker) ∧
    specLexicalNormalizer "he looked um".data = "he looked um".data ∧
    cleanText "he looked um".data = "he look/ed (um [FP])".data ∧
    cleanText "he looked um".data ≠ specLexicalNormalizer "he looked um".data := by
  decide

/-- C9 (amended): a raw line without a clock marker (at a non-title index) is
appended as a single line after the full `clean_text` pipeline, with no
C-unit segmentation; a marker line whose cleaned content lacks a speaker code
is likewise emitted unsegmented as one `clean_text`-processed line. -/
theorem claim_C9_theorem :
    (∀ (st : PState) (idx : Nat) (line : List Char), idx ≠ 0 →
      searchTimestamp (pyStrip line) = none → (pyStrip line).isEmpty = false →
      stepLine st idx line = { st with acc := st.acc ++ [cleanText (pyStrip line)] }) ∧
    (∀ (st : PState) (idx : Nat) (line ts after : List Char), idx ≠ 0 →
      searchTimestamp (pyStrip line) = some (ts, after) →
      (pyStrip line).isEmpty = false → (pyStrip after).isEmpty = false →
      speakerOf (cleanText (pyStrip after)) = none →
      stepLine st idx line =
        { prevTs := some ((parseTimestamp ('[' :: ts ++ [']'])).getD (0, 0, 0)),
          prevSpeaker := st.prevSpeaker,
          acc := st.acc ++ assemblerTimeLines st.prevTs
              ((parseTimestamp ('[' :: ts ++ [']'])).getD (0, 0, 0))
            ++ [cleanText (pyStrip after)] }) :=
  ⟨stepLine_no_marker, stepLine_marker_no_speaker⟩

/-- C9 witness: one concrete continuation line appended after cleaning. -/
theorem claim_C9_witness :
    searchTimestamp (pyStrip "he looked um".data) = none ∧
    stepLine ⟨some (0, 0, 1), none, ["x".data]⟩ 1 "he looked um".data =
      ⟨some (0, 0, 1), none, ["x".data, cleanText (pyStrip "he looked um".data)]⟩ :=
  ⟨by decide, claim_C9_theorem.1 ⟨some (0, 0, 1), none, ["x".data]⟩ 1 "he looked um".data
    (by decide) (by decide) (by decide)⟩
